import Mathlib

/-!
Verification of the snapshot diff-and-summarization engine of
`fetch_portad_dashboard.py` (portad-automation).

The Python values manipulated by the engine (parsed JSON documents plus the
in-memory parse results) are shallowly embedded as the inductive type `JVal`:
maps become ordered association lists with string keys (Python `dict` preserves
insertion order), Python lists become `arr`, Python tuples become `tup`
(distinct from lists, as in Python, where `(a, b) == [a, b]` is false), and
scalars are strings, integers, booleans and `None` (`null`).

Python operations that can raise are embedded as `Except String` computations;
the error string names the Python exception class.  Pure string manipulation is
embedded through the character list `String.data` so that Python's
code-point-based semantics (`len`, slicing) is matched exactly.

Some source string literals begin with the character U+F8FF (an artifact of the
repository's double-encoded emoji); the constant `puaChar` below reproduces it,
and the remaining visible mojibake characters are copied verbatim.
-/

namespace Portad

/-- One node of a Python/JSON document: `None`, `bool`, `int`, `str`, `list`,
`dict` (ordered association list with unique string keys) or `tuple`. -/
inductive JVal : Type where
  | null : JVal
  | bool (b : Bool) : JVal
  | num (n : Int) : JVal
  | str (s : String) : JVal
  | arr (xs : List JVal) : JVal
  | obj (kvs : List (String × JVal)) : JVal
  | tup (xs : List JVal) : JVal

mutual

/-- Structural equality of embedded Python values, the embedding of Python
`==` on document values. -/
def JVal.beq : JVal → JVal → Bool
  | .null, .null => true
  | .bool a, .bool b => a == b
  | .num a, .num b => a == b
  | .str a, .str b => a == b
  | .arr xs, .arr ys => JVal.beqList xs ys
  | .obj ps, .obj qs => JVal.beqKVs ps qs
  | .tup xs, .tup ys => JVal.beqList xs ys
  | _, _ => false

def JVal.beqList : List JVal → List JVal → Bool
  | [], [] => true
  | x :: xs, y :: ys => JVal.beq x y && JVal.beqList xs ys
  | _, _ => false

def JVal.beqKVs : List (String × JVal) → List (String × JVal) → Bool
  | [], [] => true
  | (k, v) :: ps, (l, w) :: qs =>
      k == l && JVal.beq v w && JVal.beqKVs ps qs
  | _, _ => false

end

instance : BEq JVal := ⟨JVal.beq⟩

mutual

theorem JVal.eq_of_beq : ∀ (a b : JVal), JVal.beq a b = true → a = b
  | .null, .null, _ => rfl
  | .bool a, .bool b, h => by
      simp only [JVal.beq] at h; exact congrArg JVal.bool (by simpa using h)
  | .num a, .num b, h => by
      simp only [JVal.beq] at h; exact congrArg JVal.num (by simpa using h)
  | .str a, .str b, h => by
      simp only [JVal.beq] at h; exact congrArg JVal.str (by simpa using h)
  | .arr xs, .arr ys, h =>
      congrArg JVal.arr (JVal.eqList_of_beqList xs ys h)
  | .obj ps, .obj qs, h =>
      congrArg JVal.obj (JVal.eqKVs_of_beqKVs ps qs h)
  | .tup xs, .tup ys, h =>
      congrArg JVal.tup (JVal.eqList_of_beqList xs ys h)
  | .null, .bool _, h => Bool.noConfusion h
  | .null, .num _, h => Bool.noConfusion h
  | .null, .str _, h => Bool.noConfusion h
  | .null, .arr _, h => Bool.noConfusion h
  | .null, .obj _, h => Bool.noConfusion h
  | .null, .tup _, h => Bool.noConfusion h
  | .bool _, .null, h => Bool.noConfusion h
  | .bool _, .num _, h => Bool.noConfusion h
  | .bool _, .str _, h => Bool.noConfusion h
  | .bool _, .arr _, h => Bool.noConfusion h
  | .bool _, .obj _, h => Bool.noConfusion h
  | .bool _, .tup _, h => Bool.noConfusion h
  | .num _, .null, h => Bool.noConfusion h
  | .num _, .bool _, h => Bool.noConfusion h
  | .num _, .str _, h => Bool.noConfusion h
  | .num _, .arr _, h => Bool.noConfusion h
  | .num _, .obj _, h => Bool.noConfusion h
  | .num _, .tup _, h => Bool.noConfusion h
  | .str _, .null, h => Bool.noConfusion h
  | .str _, .bool _, h => Bool.noConfusion h
  | .str _, .num _, h => Bool.noConfusion h
  | .str _, .arr _, h => Bool.noConfusion h
  | .str _, .obj _, h => Bool.noConfusion h
  | .str _, .tup _, h => Bool.noConfusion h
  | .arr _, .null, h => Bool.noConfusion h
  | .arr _, .bool _, h => Bool.noConfusion h
  | .arr _, .num _, h => Bool.noConfusion h
  | .arr _, .str _, h => Bool.noConfusion h
  | .arr _, .obj _, h => Bool.noConfusion h
  | .arr _, .tup _, h => Bool.noConfusion h
  | .obj _, .null, h => Bool.noConfusion h
  | .obj _, .bool _, h => Bool.noConfusion h
  | .obj _, .num _, h => Bool.noConfusion h
  | .obj _, .str _, h => Bool.noConfusion h
  | .obj _, .arr _, h => Bool.noConfusion h
  | .obj _, .tup _, h => Bool.noConfusion h
  | .tup _, .null, h => Bool.noConfusion h
  | .tup _, .bool _, h => Bool.noConfusion h
  | .tup _, .num _, h => Bool.noConfusion h
  | .tup _, .str _, h => Bool.noConfusion h
  | .tup _, .arr _, h => Bool.noConfusion h
  | .tup _, .obj _, h => Bool.noConfusion h

theorem JVal.eqList_of_beqList :
    ∀ (xs ys : List JVal), JVal.beqList xs ys = true → xs = ys
  | [], [], _ => rfl
  | x :: xs, y :: ys, h => by
      simp only [JVal.beqList, Bool.and_eq_true] at h
      exact congrArg₂ List.cons (JVal.eq_of_beq x y h.1)
        (JVal.eqList_of_beqList xs ys h.2)
  | [], _ :: _, h => Bool.noConfusion h
  | _ :: _, [], h => Bool.noConfusion h

theorem JVal.eqKVs_of_beqKVs :
    ∀ (ps qs : List (String × JVal)), JVal.beqKVs ps qs = true → ps = qs
  | [], [], _ => rfl
  | (k, v) :: ps, (l, w) :: qs, h => by
      simp only [JVal.beqKVs, Bool.and_eq_true] at h
      have hk : k = l := by simpa using h.1.1
      have hv : v = w := JVal.eq_of_beq v w h.1.2
      have hr : ps = qs := JVal.eqKVs_of_beqKVs ps qs h.2
      rw [hk, hv, hr]
  | [], _ :: _, h => Bool.noConfusion h
  | _ :: _, [], h => Bool.noConfusion h

end

mutual

theorem JVal.beq_refl : ∀ (a : JVal), JVal.beq a a = true
  | .null => rfl
  | .bool a => by simp [JVal.beq]
  | .num a => by simp [JVal.beq]
  | .str a => by simp [JVal.beq]
  | .arr xs => JVal.beqList_refl xs
  | .obj ps => JVal.beqKVs_refl ps
  | .tup xs => JVal.beqList_refl xs

theorem JVal.beqList_refl : ∀ (xs : List JVal), JVal.beqList xs xs = true
  | [] => rfl
  | x :: xs => by
      simp only [JVal.beqList, Bool.and_eq_true]
      exact ⟨JVal.beq_refl x, JVal.beqList_refl xs⟩

theorem JVal.beqKVs_refl :
    ∀ (ps : List (String × JVal)), JVal.beqKVs ps ps = true
  | [] => rfl
  | (k, v) :: ps => by
      simp only [JVal.beqKVs, Bool.and_eq_true]
      exact ⟨⟨by simp, JVal.beq_refl v⟩, JVal.beqKVs_refl ps⟩

end

theorem JVal.beq_iff_eq (a b : JVal) : JVal.beq a b = true ↔ a = b :=
  ⟨JVal.eq_of_beq a b, fun h => h ▸ JVal.beq_refl a⟩

instance : DecidableEq JVal := fun a b =>
  decidable_of_iff (JVal.beq a b = true) (JVal.beq_iff_eq a b)

namespace JVal

/-- First-match association-list lookup: the Python `dict` access on the
embedded key list. -/
def lookup? : List (String × JVal) → String → Option JVal
  | [], _ => none
  | (k, v) :: rest, key => if k = key then some v else lookup? rest key

/-- Python truthiness (`bool(v)`): empty containers, empty strings, zero,
`False` and `None` are falsy. -/
def truthy : JVal → Bool
  | .null => false
  | .bool b => b
  | .num n => n != 0
  | .str s => !s.data.isEmpty
  | .arr xs => !xs.isEmpty
  | .obj kvs => !kvs.isEmpty
  | .tup xs => !xs.isEmpty

def isObj : JVal → Bool
  | .obj _ => true
  | _ => false

def isArr : JVal → Bool
  | .arr _ => true
  | _ => false

def isStr : JVal → Bool
  | .str _ => true
  | _ => false

/-- `v.get(key, default)` — raises `AttributeError` unless `v` is a dict.
A missing key yields the default. -/
def pyGetD (v : JVal) (key : String) (dflt : JVal) : Except String JVal :=
  match v with
  | .obj kvs => .ok ((lookup? kvs key).getD dflt)
  | _ => .error "AttributeError"

/-- `v.get(key)` — like `pyGetD` with Python's `None` default.  Note that a
stored JSON `null` and a missing key are indistinguishable, as in Python. -/
def pyGet (v : JVal) (key : String) : Except String JVal :=
  pyGetD v key .null

/-- `len(v)` — defined for sized values (strings count code points, as Python
does), `TypeError` otherwise. -/
def pyLen : JVal → Except String Nat
  | .str s => .ok s.data.length
  | .arr xs => .ok xs.length
  | .obj kvs => .ok kvs.length
  | .tup xs => .ok xs.length
  | _ => .error "TypeError"

/-- Iterating a Python value: lists and tuples yield their elements, a string
yields its characters as one-character strings, a dict yields its keys;
other values raise `TypeError`. -/
def pyIter : JVal → Except String (List JVal)
  | .arr xs => .ok xs
  | .tup xs => .ok xs
  | .str s => .ok (s.data.map fun c => .str c.toString)
  | .obj kvs => .ok (kvs.map fun kv => .str kv.1)
  | _ => .error "TypeError"

end JVal

mutual

/-- A value is hashable (usable as a `dict` key) unless it is or contains a
list or a dict. -/
def JVal.hashable : JVal → Bool
  | .arr _ => false
  | .obj _ => false
  | .tup xs => JVal.hashableList xs
  | _ => true

def JVal.hashableList : List JVal → Bool
  | [] => true
  | x :: xs => JVal.hashable x && JVal.hashableList xs

end

/-- Python `dict` insertion on an ordered association list with `String` keys:
an existing key keeps its position and gets the new value, a fresh key is
appended. -/
def dictInsert (m : List (String × JVal)) (k : String) (v : JVal) :
    List (String × JVal) :=
  if m.any fun p => p.1 == k then
    m.map fun p => if p.1 = k then (k, v) else p
  else
    m ++ [(k, v)]

/-- Python `dict` insertion for dicts keyed by arbitrary (hashable) values,
used for the `labels`/`values` dicts of `_row_maps`. -/
def dictInsertJ (m : List (JVal × JVal)) (k v : JVal) : List (JVal × JVal) :=
  if m.any fun p => p.1 == k then
    m.map fun p => if p.1 = k then (k, v) else p
  else
    m ++ [(k, v)]

def lookupJ? : List (JVal × JVal) → JVal → Option JVal
  | [], _ => none
  | (k, v) :: rest, key => if k == key then some v else lookupJ? rest key

/-! ### Python string helpers (over `String.data`) -/

/-- Python `str.strip()` with no argument: drop whitespace from both ends. -/
def pyStrip (s : String) : String :=
  ⟨((s.data.dropWhile Char.isWhitespace).reverse.dropWhile
      Char.isWhitespace).reverse⟩

/-- Python slicing `s[:n]` (by code point, like Python). -/
def pyTake (n : Nat) (s : String) : String := ⟨s.data.take n⟩

/-- Python `"\n".join(lines)`. -/
def joinNl : List String → String
  | [] => ""
  | [x] => x
  | x :: rest => x ++ "\n" ++ joinNl rest

/-- Python `sep.join(strs)` for a general separator. -/
def joinSep (sep : String) : List String → String
  | [] => ""
  | [x] => x
  | x :: rest => x ++ sep ++ joinSep sep rest

/-- Splitting a character list at line boundaries, Python
`str.splitlines()`-style: accepts `\n`, `\r` and `\r\n` terminators and
produces no trailing empty piece. -/
def splitLinesAux (acc : List Char) : List Char → List (List Char)
  | [] => [acc.reverse]
  | '\r' :: '\n' :: rest =>
      acc.reverse :: (if rest = [] then [] else splitLinesAux [] rest)
  | '\n' :: rest =>
      acc.reverse :: (if rest = [] then [] else splitLinesAux [] rest)
  | '\r' :: rest =>
      acc.reverse :: (if rest = [] then [] else splitLinesAux [] rest)
  | c :: rest => splitLinesAux (c :: acc) rest

/-- Python `str.splitlines()`:  `"".splitlines() == []`, and a trailing
terminator produces no empty final line. -/
def pySplitlines (s : String) : List String :=
  if s.data = [] then [] else (splitLinesAux [] s.data).map fun l => ⟨l⟩

/-- Substring containment, Python `needle in haystack` on strings. -/
def listInfix (needle haystack : List Char) : Bool :=
  haystack.tails.any fun t => needle.isPrefixOf t

def pySubstr (needle haystack : String) : Bool :=
  listInfix needle.data haystack.data

/-- Python `s.startswith(pre)` (over the character lists, like the rest of
the string embedding). -/
def pyStartsWith (s pre : String) : Bool :=
  pre.data.isPrefixOf s.data

/-- ASCII lowercasing of one character; Python's `str.lower()` also folds
non-ASCII letters, which never occur uppercase in the strings this program
compares. -/
def pyLowerChar (c : Char) : Char :=
  if 'A' ≤ c ∧ c ≤ 'Z' then Char.ofNat (c.toNat + 32) else c

/-- Python `s.lower()`. -/
def pyLower (s : String) : String :=
  ⟨s.data.map pyLowerChar⟩

/-- Helper for Python `str.split()` (whitespace split): accumulates the
current word in reverse. -/
def splitWsAux (acc : List Char) : List Char → List String
  | [] => if acc.isEmpty then [] else [⟨acc.reverse⟩]
  | c :: rest =>
      if c.isWhitespace then
        (if acc.isEmpty then [] else [⟨acc.reverse⟩]) ++ splitWsAux [] rest
      else splitWsAux (c :: acc) rest

/-- Python `str.split()` with no argument: split on whitespace runs,
no empty pieces. -/
def pySplitWs (cs : List Char) : List String := splitWsAux [] cs

/-- Python `str.replace(old, new)` for single characters (all that the source
needs: `text.replace("\xa0", " ")`). -/
def pyReplaceChar (old new : Char) (s : String) : String :=
  ⟨s.data.map fun c => if c = old then new else c⟩

/-- Stable insertion into an ascending list: the new element goes after all
elements `≤` it, which makes the induced sort stable like Python's `sorted`. -/
def insSorted (le : α → α → Bool) (x : α) : List α → List α
  | [] => [x]
  | y :: ys => if le y x then y :: insSorted le x ys else x :: y :: ys

/-- Stable ascending sort (Python `sorted`). -/
def pySorted (le : α → α → Bool) (xs : List α) : List α :=
  xs.foldr (insSorted le) []

/-- Lexicographic `≤` on character lists by code point. -/
def lexLeCh : List Char → List Char → Bool
  | [], _ => true
  | _ :: _, [] => false
  | a :: as, b :: bs =>
      if a.toNat < b.toNat then true
      else if b.toNat < a.toNat then false
      else lexLeCh as bs

/-- String `≤` as a Bool, the comparison Python uses on `str` (lexicographic
by code point). -/
def strLe (a b : String) : Bool := lexLeCh a.data b.data

/-- The character U+F8FF that precedes the double-encoded emoji sequences in
the source's string literals. -/
def puaChar : Char := Char.ofNat 63743

def puaStr : String := puaChar.toString

/-! ### Python `repr`/`str` and `json.dumps` -/

/-- Escape one character inside a Python single-quoted `repr`. -/
def reprEscChar (c : Char) : String :=
  if c = '\\' then "\\\\"
  else if c = '\'' then "\\'"
  else if c = '\n' then "\\n"
  else if c = '\r' then "\\r"
  else if c = '\t' then "\\t"
  else c.toString

/-- Python `repr` of a string: single-quoted with the usual escapes (the
double-quote-preferring corner of CPython's repr is reproduced for strings
that contain a single quote and no double quote). -/
def pyReprStr (s : String) : String :=
  if s.data.contains '\'' && !(s.data.contains '"') then
    "\"" ++ String.join (s.data.map fun c =>
      if c = '\\' then "\\\\"
      else if c = '"' then "\\\""
      else if c = '\n' then "\\n"
      else if c = '\r' then "\\r"
      else if c = '\t' then "\\t"
      else c.toString) ++ "\""
  else
    "'" ++ String.join (s.data.map reprEscChar) ++ "'"

mutual

/-- Python `repr()` restricted to the embedded values. -/
def pyRepr : JVal → String
  | .null => "None"
  | .bool b => if b then "True" else "False"
  | .num n => toString n
  | .str s => pyReprStr s
  | .arr xs => "[" ++ pyReprList xs ++ "]"
  | .obj kvs => "\x7b" ++ pyReprKVs kvs ++ "\x7d"
  | .tup [] => "()"
  | .tup [x] => "(" ++ pyRepr x ++ ",)"
  | .tup (x :: y :: rest) => "(" ++ pyReprList (x :: y :: rest) ++ ")"

def pyReprList : List JVal → String
  | [] => ""
  | [x] => pyRepr x
  | x :: y :: rest => pyRepr x ++ ", " ++ pyReprList (y :: rest)

def pyReprKVs : List (String × JVal) → String
  | [] => ""
  | [(k, v)] => pyReprStr k ++ ": " ++ pyRepr v
  | (k, v) :: p :: rest =>
      pyReprStr k ++ ": " ++ pyRepr v ++ ", " ++ pyReprKVs (p :: rest)

end

/-- Python `str()`: identity on strings, `repr`-like on containers. -/
def pyStr : JVal → String
  | .str s => s
  | v => pyRepr v

/-- Four lowercase hex digits, for `\uXXXX` escapes. -/
def hex4 (n : Nat) : String :=
  ⟨[Nat.digitChar (n / 4096 % 16), Nat.digitChar (n / 256 % 16),
    Nat.digitChar (n / 16 % 16), Nat.digitChar (n % 16)]⟩

/-- Escape one character of a JSON string the way `json.dumps` does
(`ensure_ascii` escapes everything above U+007E, using surrogate pairs
beyond U+FFFF). -/
def jsonEscChar (ensureAscii : Bool) (c : Char) : String :=
  if c = '"' then "\\\""
  else if c = '\\' then "\\\\"
  else if c = '\n' then "\\n"
  else if c = '\r' then "\\r"
  else if c = '\t' then "\\t"
  else if c.toNat < 32 then "\\u" ++ hex4 c.toNat
  else if ensureAscii && c.toNat > 126 then
    if c.toNat < 65536 then "\\u" ++ hex4 c.toNat
    else
      "\\u" ++ hex4 (55296 + (c.toNat - 65536) / 1024) ++
      "\\u" ++ hex4 (56320 + (c.toNat - 65536) % 1024)
  else c.toString

def jsonEscStr (ensureAscii : Bool) (s : String) : String :=
  "\"" ++ String.join (s.data.map (jsonEscChar ensureAscii)) ++ "\""

mutual

/-- `json.dumps(v, ensure_ascii=False)` with default separators and without
`sort_keys`, as used by `_stringify_value`.  Tuples serialize as JSON
arrays, exactly as in Python. -/
def dumpsRaw : JVal → String
  | .null => "null"
  | .bool b => if b then "true" else "false"
  | .num n => toString n
  | .str s => jsonEscStr false s
  | .arr xs => "[" ++ dumpsRawList xs ++ "]"
  | .tup xs => "[" ++ dumpsRawList xs ++ "]"
  | .obj kvs => "\x7b" ++ dumpsRawKVs kvs ++ "\x7d"

def dumpsRawList : List JVal → String
  | [] => ""
  | [x] => dumpsRaw x
  | x :: y :: rest => dumpsRaw x ++ ", " ++ dumpsRawList (y :: rest)

def dumpsRawKVs : List (String × JVal) → String
  | [] => ""
  | [(k, v)] => jsonEscStr false k ++ ": " ++ dumpsRaw v
  | (k, v) :: p :: rest =>
      jsonEscStr false k ++ ": " ++ dumpsRaw v ++ ", " ++ dumpsRawKVs (p :: rest)

end

theorem mem_insSorted {le : α → α → Bool} {x y : α} {xs : List α} :
    y ∈ insSorted le x xs ↔ y = x ∨ y ∈ xs := by
  induction xs with
  | nil => simp [insSorted]
  | cons z zs ih =>
      simp only [insSorted]
      split <;> simp only [List.mem_cons, ih] <;> tauto

theorem mem_pySorted {le : α → α → Bool} {y : α} {xs : List α} :
    y ∈ pySorted le xs ↔ y ∈ xs := by
  induction xs with
  | nil => simp [pySorted]
  | cons z zs ih =>
      simp only [pySorted, List.foldr] at *
      rw [mem_insSorted, ih, List.mem_cons]

/-- `json.dumps(v, sort_keys=True)` (with the default `ensure_ascii=True`),
the canonical serialization used by `diff_changed`. -/
def dumpsCanon : JVal → String
  | .null => "null"
  | .bool b => if b then "true" else "false"
  | .num n => toString n
  | .str s => jsonEscStr true s
  | .arr xs => "[" ++ joinSep ", " (xs.attach.map fun x => dumpsCanon x.1) ++ "]"
  | .tup xs => "[" ++ joinSep ", " (xs.attach.map fun x => dumpsCanon x.1) ++ "]"
  | .obj kvs =>
      "\x7b" ++ joinSep ", "
        ((pySorted (fun p q => strLe p.1 q.1) kvs).attach.map fun p =>
          jsonEscStr true p.1.1 ++ ": " ++ dumpsCanon p.1.2) ++ "\x7d"
termination_by v => sizeOf v
decreasing_by
  all_goals
    first
      | (have h9 := List.sizeOf_lt_of_mem x.2
         simp only [JVal.arr.sizeOf_spec, JVal.tup.sizeOf_spec]
         omega)
      | (have hm : p.1 ∈ kvs := mem_pySorted.mp p.2
         have h1 := List.sizeOf_lt_of_mem hm
         have hp : sizeOf p.1.2 < sizeOf p.1 := by
           cases p.1 with | mk a b => simp only [Prod.mk.sizeOf_spec]; omega
         simp only [JVal.obj.sizeOf_spec]
         omega)

/-! ### `_stringify_value`, `_format_value` -/

/-- `_stringify_value(val, max_len=120)`. -/
def stringify_value (val : JVal) (maxLen : Nat := 120) : String :=
  let text := dumpsRaw val
  if text.data.length > maxLen then pyTake (maxLen - 3) text ++ "..." else text

/-- `_format_value(value)`. -/
def format_value (value : JVal) : String :=
  match value with
  | .null => "-"
  | .str s => if s.data.isEmpty then "-" else s
  | .arr xs => stringify_value (.arr xs)
  | .obj kvs => stringify_value (.obj kvs)
  | v => pyStr v

/-! ### `_build_label_map` -/

def natLookup : List (String × Nat) → String → Option Nat
  | [], _ => none
  | (k, v) :: rest, key => if k == key then some v else natLookup rest key

def natInsert (m : List (String × Nat)) (k : String) (v : Nat) :
    List (String × Nat) :=
  if m.any fun p => p.1 == k then
    m.map fun p => if p.1 = k then (k, v) else p
  else
    m ++ [(k, v)]

/-- The effective label of entry `e` at position `idx` (0-based): the stripped
string value of `labelKey` when it is a non-empty string, otherwise
`"{fallback} {idx+1}"`.  Raises `AttributeError` when `e` is not a dict. -/
def effLabel (e : JVal) (labelKey fallback : String) (idx : Nat) :
    Except String String := do
  let raw ← e.pyGet labelKey
  let lab := match raw with
    | .str s => pyStrip s
    | _ => ""
  return if lab.data.isEmpty then fallback ++ " " ++ toString (idx + 1) else lab

/-- The loop of `_build_label_map`: `seen` is the `seen_counts` dict and
`mapping` the accumulated result. -/
def build_label_map_go (labelKey fallback : String) :
    List JVal → Nat → List (String × Nat) → List (String × JVal) →
    Except String (List (String × JVal))
  | [], _, _, mapping => .ok mapping
  | e :: rest, idx, seen, mapping => do
      let label ← effLabel e labelKey fallback idx
      let count := (natLookup seen label).getD 0
      let unique := if count = 0 then label
        else label ++ " #" ++ toString (count + 1)
      build_label_map_go labelKey fallback rest (idx + 1)
        (natInsert seen label (count + 1)) (dictInsert mapping unique e)

/-- `_build_label_map(entries, label_key, fallback_prefix)`. -/
def build_label_map (entries : List JVal) (labelKey fallback : String) :
    Except String (List (String × JVal)) :=
  build_label_map_go labelKey fallback entries 0 [] []

/-! ### `_looks_like_header_row`, `_describe_table_row`, `_detect_new_rows` -/

/-- `_looks_like_header_row(row)`.  The Python comparison
`matches / total >= 0.7` is a float comparison; for the denominators that can
occur (`total` is a row's field count) it coincides with the exact rational
comparison `10 * matches >= 7 * total` used here. -/
def looks_like_header_row (row : JVal) : Bool :=
  match row with
  | .obj [] => false
  | .obj kvs =>
      let total := kvs.length
      let matched := (kvs.filter fun kv =>
        match kv.2 with
        | .str v =>
            pyStrip v == pyStrip kv.1 ||
            (pyStartsWith (pyLower kv.1) "col" && (pyStrip v).data.isEmpty)
        | _ => false).length
      decide (0 < total) && decide (7 * total ≤ 10 * matched)
  | _ => false

def describe_preferred_keys : List String :=
  ["Date de valeur", "Objet", "Mt Factur√©", "R√®glement", "Versement",
   "Disponible", "N¬∞ de facture", "Mois", "Ann√©e"]

/-- First loop of `_describe_table_row`: collect `"key: val"` for preferred
keys present in the row with a non-empty string value different from the
key. -/
def describePreferredItems (kvs : List (String × JVal)) : List String :=
  describe_preferred_keys.foldl (fun items key =>
    match JVal.lookup? kvs key with
    | some (.str v) =>
        if !v.data.isEmpty && v ≠ key then items ++ [key ++ ": " ++ v]
        else items
    | _ => items) []

/-- Fallback loop of `_describe_table_row`: first fields with a non-empty
string value different from their key, stopping once four are collected. -/
def describeFallbackItems : List (String × JVal) → List String → List String
  | [], items => items
  | (k, v) :: rest, items =>
      let items' := match v with
        | .str s => if !s.data.isEmpty && s ≠ k then items ++ [k ++ ": " ++ s]
          else items
        | _ => items
      if items'.length ≥ 4 then items'
      else describeFallbackItems rest items'

/-- `_describe_table_row(row, headers)` (the `headers` argument is unused in
the source as well). -/
def describe_table_row (row : JVal) (_headers : Option (List JVal) := none) :
    String :=
  match row with
  | .obj kvs =>
      let items := describePreferredItems kvs
      let items := if items.isEmpty then describeFallbackItems kvs [] else items
      if items.isEmpty then stringify_value row 200
      else joinSep ", " items
  | .arr xs =>
      let compact := (xs.filter fun v => v ≠ .str "" && v ≠ .null).map pyStr
      if compact.isEmpty then stringify_value row 200
      else joinSep " | " compact
  | .tup xs =>
      let compact := (xs.filter fun v => v ≠ .str "" && v ≠ .null).map pyStr
      if compact.isEmpty then stringify_value row 200
      else joinSep " | " compact
  | _ => stringify_value row 200

/-- Remove the first occurrence structurally equal to `r`. -/
def removeFirst : List JVal → JVal → Option (List JVal)
  | [], _ => none
  | x :: xs, r =>
      if x == r then some xs
      else (removeFirst xs r).map fun ys => x :: ys

/-- `_detect_new_rows(prev_rows, curr_rows)`: multiset difference — each
current row consumes the first structurally equal unconsumed previous row;
unmatched current rows are new. -/
def detect_new_rows_go : List JVal → List JVal → List JVal
  | _, [] => []
  | remaining, r :: rs =>
      match removeFirst remaining r with
      | some remaining' => detect_new_rows_go remaining' rs
      | none => r :: detect_new_rows_go remaining rs

def detect_new_rows (prevRows currRows : List JVal) : List JVal :=
  detect_new_rows_go prevRows currRows

theorem removeFirst_cons_self (x : JVal) (xs : List JVal) :
    removeFirst (x :: xs) x = some xs := by
  simp only [removeFirst, BEq.beq, JVal.beq_refl, if_true]

theorem detect_new_rows_go_self : ∀ l : List JVal, detect_new_rows_go l l = []
  | [] => rfl
  | x :: xs => by
      simp only [detect_new_rows_go, removeFirst_cons_self]
      exact detect_new_rows_go_self xs

theorem detect_new_rows_go_nil_left : ∀ l : List JVal, detect_new_rows_go [] l = l
  | [] => rfl
  | x :: xs => by
      simp only [detect_new_rows_go, removeFirst]
      exact congrArg (x :: ·) (detect_new_rows_go_nil_left xs)

/-! ### `Nat.repr` injectivity

The disambiguation suffixes of `_build_label_map` embed decimal renderings of
counters; the following shows that Lean's decimal rendering (the embedding of
Python's) is injective. -/

/-- The decimal digit list of `n`, most significant first. -/
def natDigits (n : Nat) : List Char :=
  if n < 10 then [Nat.digitChar n]
  else natDigits (n / 10) ++ [Nat.digitChar (n % 10)]
termination_by n
decreasing_by
  exact Nat.div_lt_self (by omega) (by omega)

/-- Value of a decimal digit string. -/
def digitsVal (l : List Char) : Nat :=
  l.foldl (fun a c => 10 * a + (c.toNat - 48)) 0

theorem digitChar_toNat {n : Nat} (h : n < 10) :
    (Nat.digitChar n).toNat = 48 + n := by
  interval_cases n <;> decide

theorem toDigitsCore_eq_natDigits (n : Nat) :
    ∀ (fuel : Nat) (ds : List Char), n < fuel →
      Nat.toDigitsCore 10 fuel n ds = natDigits n ++ ds := by
  induction n using Nat.strong_induction_on with
  | _ n ih =>
      intro fuel ds hlt
      match fuel with
      | 0 => omega
      | f + 1 =>
          rw [Nat.toDigitsCore]
          by_cases h10 : n / 10 = 0
          · have hn : n < 10 := by omega
            rw [if_pos h10, natDigits, if_pos hn, Nat.mod_eq_of_lt hn]
            rfl
          · have hn : ¬ n < 10 := by
              intro hc
              exact h10 (Nat.div_eq_of_lt hc)
            rw [if_neg h10, ih (n / 10) (Nat.div_lt_self (by omega) (by omega))
                f _ (by omega)]
            nth_rewrite 2 [natDigits]
            rw [if_neg hn, List.append_assoc]
            rfl

theorem digitsVal_append_singleton (l : List Char) (c : Char) :
    digitsVal (l ++ [c]) = 10 * digitsVal l + (c.toNat - 48) := by
  simp [digitsVal, List.foldl_append]

theorem digitsVal_natDigits (n : Nat) : digitsVal (natDigits n) = n := by
  induction n using Nat.strong_induction_on with
  | _ n ih =>
      by_cases h : n < 10
      · rw [natDigits, if_pos h]
        simp [digitsVal, digitChar_toNat h]
      · rw [natDigits, if_neg h, digitsVal_append_singleton,
          ih (n / 10) (Nat.div_lt_self (by omega) (by omega)),
          digitChar_toNat (Nat.mod_lt n (by omega))]
        omega

theorem natRepr_data (n : Nat) : (Nat.repr n).data = natDigits n := by
  have h := toDigitsCore_eq_natDigits n (n + 1) [] (by omega)
  simp only [Nat.repr, Nat.toDigits, h, List.append_nil]
  rfl

theorem natRepr_injective {n m : Nat} (h : Nat.repr n = Nat.repr m) : n = m := by
  have hd : natDigits n = natDigits m := by
    rw [← natRepr_data, ← natRepr_data, h]
  have := congrArg digitsVal hd
  rwa [digitsVal_natDigits, digitsVal_natDigits] at this

theorem natDigits_ne_nil (n : Nat) : natDigits n ≠ [] := by
  rw [natDigits]
  split
  · simp
  · simp

/-! ### The label-disambiguation scheme of `_build_label_map` -/

/-- The output key generated for the occurrence with counter value `j`
(0-based) of effective label `L`. -/
def uLabel (L : String) (j : Nat) : String :=
  if j = 0 then L else L ++ " #" ++ toString (j + 1)

/-- The keys generated for the first `c` occurrences of one label `L`. -/
def genKeys (L : String) (c : Nat) : List String :=
  (List.range c).map (uLabel L)

theorem string_append_data (a b : String) : (a ++ b).data = a.data ++ b.data :=
  rfl

theorem uLabel_injective {L : String} {i j : Nat} (h : uLabel L i = uLabel L j) :
    i = j := by
  by_cases hi : i = 0 <;> by_cases hj : j = 0
  · omega
  · exfalso
    have := congrArg (fun s => s.data.length) h
    simp only [uLabel, hi, if_pos, if_neg hj, string_append_data,
      List.length_append] at this
    have hne := natDigits_ne_nil (j + 1)
    have : (toString (j + 1) : String).data = natDigits (j + 1) := natRepr_data _
    simp_all [List.length_eq_zero]
    omega
  · exfalso
    have := congrArg (fun s => s.data.length) h
    simp only [uLabel, hj, if_pos, if_neg hi, string_append_data,
      List.length_append] at this
    have hne := natDigits_ne_nil (i + 1)
    have : (toString (i + 1) : String).data = natDigits (i + 1) := natRepr_data _
    simp_all [List.length_eq_zero]
    omega
  · have hdata := congrArg String.data h
    simp only [uLabel, if_neg hi, if_neg hj, string_append_data] at hdata
    have hrepr : (toString (i + 1) : String).data = (toString (j + 1) : String).data :=
      List.append_cancel_left hdata
    have : Nat.repr (i + 1) = Nat.repr (j + 1) := by
      apply congrArg String.mk
      exact hrepr
    have := natRepr_injective this
    omega

theorem uLabel_not_mem_genKeys (L : String) (c : Nat) :
    uLabel L c ∉ genKeys L c := by
  intro hmem
  simp only [genKeys, List.mem_map] at hmem
  obtain ⟨j, hj, hEq⟩ := hmem
  have := uLabel_injective hEq.symm
  simp only [List.mem_range] at hj
  omega

theorem genKeys_nodup (L : String) (c : Nat) : (genKeys L c).Nodup := by
  induction c with
  | zero => simp [genKeys]
  | succ c ih =>
      simp only [genKeys, List.range_succ, List.map_append, List.map_cons,
        List.map_nil]
      rw [List.nodup_append]
      refine ⟨ih, by simp, ?_⟩
      intro a ha hb
      simp only [List.mem_singleton] at hb
      subst hb
      exact uLabel_not_mem_genKeys L c ha

/-! ### Key structure of the mapping built by `_build_label_map` -/

theorem dictInsert_keys_of_fresh {m : List (String × JVal)} {k : String}
    (h : k ∉ m.map Prod.fst) (v : JVal) :
    (dictInsert m k v).map Prod.fst = m.map Prod.fst ++ [k] := by
  have hany : (m.any fun p => p.1 == k) = false := by
    rw [List.any_eq_false]
    intro p hp hk
    rw [beq_iff_eq] at hk
    exact h (hk ▸ List.mem_map_of_mem Prod.fst hp)
  simp [dictInsert, hany]

theorem natLookup_natInsert_self (m : List (String × Nat)) (k : String) (v : Nat) :
    natLookup (natInsert m k v) k = some v := by
  by_cases h : (m.any fun p => p.1 == k) = true
  · simp only [natInsert, h, if_true]
    induction m with
    | nil => simp at h
    | cons p rest ih =>
        obtain ⟨p1, p2⟩ := p
        simp only [List.any_cons, Bool.or_eq_true] at h
        by_cases hp : p1 = k
        · subst hp
          rw [List.map_cons, if_pos (rfl : (p1, p2).1 = p1)]
          simp [natLookup]
        · have hrest : (rest.any fun q => q.1 == k) = true := by
            rcases h with h | h
            · exact absurd (by simpa using h) hp
            · exact h
          rw [List.map_cons, if_neg (hp : ¬ (p1, p2).1 = k)]
          simpa [natLookup, hp] using ih hrest
  · simp only [natInsert, h, if_false]
    induction m with
    | nil => simp [natLookup]
    | cons p rest ih =>
        obtain ⟨p1, p2⟩ := p
        simp only [List.any_cons, Bool.or_eq_true, not_or] at h
        have hp : ¬ p1 = k := by simpa using h.1
        simpa [natLookup, hp] using ih (by simpa using h.2)

/-- The effective labels of a list of entries starting at position `idx`. -/
def effLabelList (labelKey fallback : String) :
    List JVal → Nat → Except String (List String)
  | [], _ => .ok []
  | e :: rest, idx => do
      let l ← effLabel e labelKey fallback idx
      let ls ← effLabelList labelKey fallback rest (idx + 1)
      return l :: ls

/-! Inversion helpers for `Except` computations. -/

theorem except_bind_ok {α β ε : Type} {x : Except ε α} {f : α → Except ε β}
    {b : β} (h : (x >>= f) = .ok b) : ∃ a, x = .ok a ∧ f a = .ok b := by
  cases x with
  | error e => simp [Bind.bind, Except.bind] at h
  | ok a => exact ⟨a, rfl, by simpa [Bind.bind, Except.bind] using h⟩

theorem except_pure_ok {α ε : Type} {a b : α}
    (h : (pure a : Except ε α) = .ok b) : a = b := by
  simpa [pure, Except.pure] using h

/-- Invariant of the `_build_label_map` loop when every effective label is
one fixed `L`: the mapping keys are exactly `genKeys L c` where `c` is the
`seen_counts` entry for `L`. -/
theorem build_label_map_go_same (labelKey fallback L : String) :
    ∀ (es : List JVal) (idx c : Nat) (seen : List (String × Nat))
      (mapping : List (String × JVal)),
      effLabelList labelKey fallback es idx = .ok (List.replicate es.length L) →
      (natLookup seen L).getD 0 = c →
      mapping.map Prod.fst = genKeys L c →
      ∃ m, build_label_map_go labelKey fallback es idx seen mapping = .ok m ∧
        m.map Prod.fst = genKeys L (c + es.length)
  | [], idx, c, seen, mapping, _, _, hmap =>
      ⟨mapping, rfl, by simpa using hmap⟩
  | e :: rest, idx, c, seen, mapping, hlab, hseen, hmap => by
      simp only [effLabelList, List.length_cons, List.replicate_succ] at hlab
      obtain ⟨l, hl, h2⟩ := except_bind_ok hlab
      obtain ⟨ls, hrest0, h3⟩ := except_bind_ok h2
      have hcons : l :: ls = L :: List.replicate rest.length L :=
        except_pure_ok h3
      simp only [List.cons.injEq] at hcons
      obtain ⟨hlL, hlsrep⟩ := hcons
      have hrest : effLabelList labelKey fallback rest (idx + 1) =
          .ok (List.replicate rest.length L) := by rw [hrest0, hlsrep]
      subst hlL
      simp only [build_label_map_go, hl, Bind.bind, Except.bind]
      have hcount : (natLookup seen l).getD 0 = c := hseen
      have hfresh : uLabel l c ∉ mapping.map Prod.fst := by
        rw [hmap]; exact uLabel_not_mem_genKeys l c
      have hkeys :
          (dictInsert mapping (if c = 0 then l else l ++ " #" ++ toString (c + 1)) e).map
              Prod.fst = genKeys l (c + 1) := by
        have hu : (if c = 0 then l else l ++ " #" ++ toString (c + 1)) =
            uLabel l c := rfl
        rw [hu, dictInsert_keys_of_fresh hfresh, hmap]
        simp only [genKeys, List.range_succ, List.map_append, List.map_cons,
          List.map_nil]
      have hseen' : (natLookup (natInsert seen l (c + 1)) l).getD 0 = c + 1 := by
        rw [natLookup_natInsert_self]; rfl
      obtain ⟨m, hm, hmk⟩ := build_label_map_go_same labelKey fallback l rest
        (idx + 1) (c + 1) (natInsert seen l (c + 1))
        (dictInsert mapping (if c = 0 then l else l ++ " #" ++ toString (c + 1)) e)
        hrest hseen' hkeys
      refine ⟨m, ?_, ?_⟩
      · rw [hcount]
        exact hm
      · rw [hmk, List.length_cons]
        congr 1
        omega

theorem dictInsert_keys_nodup {m : List (String × JVal)}
    (h : (m.map Prod.fst).Nodup) (k : String) (v : JVal) :
    ((dictInsert m k v).map Prod.fst).Nodup := by
  by_cases hc : (m.any fun p => p.1 == k) = true
  · have hkeys : (dictInsert m k v).map Prod.fst = m.map Prod.fst := by
      simp only [dictInsert, hc, if_true, List.map_map]
      apply List.map_congr_left
      intro p _
      by_cases hp : p.1 = k
      · simp [Function.comp, hp]
      · simp [Function.comp, hp]
    rw [hkeys]
    exact h
  · have hk : k ∉ m.map Prod.fst := by
      intro hmem
      rw [List.mem_map] at hmem
      obtain ⟨p, hp, hpk⟩ := hmem
      apply hc
      rw [List.any_eq_true]
      exact ⟨p, hp, by simp [hpk]⟩
    rw [dictInsert, if_neg hc]
    simp only [List.map_append, List.map_cons, List.map_nil]
    rw [List.nodup_append]
    refine ⟨h, by simp, ?_⟩
    intro a ha hb
    simp only [List.mem_singleton] at hb
    subst hb
    exact hk ha

theorem build_label_map_go_keys_nodup (labelKey fallback : String) :
    ∀ (es : List JVal) (idx : Nat) (seen : List (String × Nat))
      (mapping : List (String × JVal)) (m : List (String × JVal)),
      (mapping.map Prod.fst).Nodup →
      build_label_map_go labelKey fallback es idx seen mapping = .ok m →
      (m.map Prod.fst).Nodup
  | [], _, _, mapping, m, hnd, h => by
      simp only [build_label_map_go, Except.ok.injEq] at h
      subst h
      exact hnd
  | e :: rest, idx, seen, mapping, m, hnd, h => by
      simp only [build_label_map_go] at h
      obtain ⟨l, hl, h2⟩ := except_bind_ok h
      exact build_label_map_go_keys_nodup labelKey fallback rest (idx + 1) _ _ m
        (dictInsert_keys_nodup hnd _ _) h2

/-- The three entries of the counterexample to C1: the middle entry's literal
label `"X #2"` collides with the disambiguated key generated for the third
entry. -/
def c1entries : List JVal :=
  [.obj [("label", .str "X")], .obj [("label", .str "X #2")],
   .obj [("label", .str "X")]]

/-- C1 counterexample: `_build_label_map` does NOT always produce as many
entries as its input.  On three entries with labels `"X"`, `"X #2"`, `"X"`,
the third entry's generated key `"X #2"` overwrites the second entry, so the
mapping has only 2 entries for 3 inputs. -/
theorem C1_counterexample :
    (build_label_map c1entries "label" "Tile").map List.length = .ok 2 ∧
      c1entries.length = 3 := by
  constructor
  · rfl
  · rfl

/-- C1 (amended): the mapping built by `_build_label_map` never has two equal
keys (its key list is duplicate-free for every input); and it has exactly as
many entries as the input list whenever all inputs share one effective label
(in particular for duplicated labels, the case the claim highlights).  An
input whose literal label equals a generated `" #k"`-suffixed key can merge
with it and lower the entry count, as the counterexample shows. -/
theorem C1_label_map :
    (∀ (entries : List JVal) (labelKey fallback : String)
        (m : List (String × JVal)),
        build_label_map entries labelKey fallback = .ok m →
        (m.map Prod.fst).Nodup) ∧
    (∀ (entries : List JVal) (labelKey fallback L : String)
        (m : List (String × JVal)),
        effLabelList labelKey fallback entries 0 =
          .ok (List.replicate entries.length L) →
        build_label_map entries labelKey fallback = .ok m →
        m.length = entries.length) := by
  constructor
  · intro entries lk fb m h
    exact build_label_map_go_keys_nodup lk fb entries 0 [] [] m (by simp) h
  · intro entries lk fb L m hlab h
    obtain ⟨m', hm', hk⟩ :=
      build_label_map_go_same lk fb L entries 0 0 [] [] hlab rfl
        (by simp [genKeys])
    rw [build_label_map] at h
    rw [h] at hm'
    have hmm : m = m' := by
      simpa using hm'
    subst hmm
    have : (m.map Prod.fst).length = (genKeys L (0 + entries.length)).length :=
      congrArg List.length hk
    simpa [genKeys] using this

/-- C1 witness: three entries all labeled `"X"` give the three distinct keys
`"X"`, `"X #2"`, `"X #3"` — one per entry. -/
theorem C1_witness :
    (([("X", JVal.obj [("label", JVal.str "X")]),
       ("X #2", JVal.obj [("label", JVal.str "X")]),
       ("X #3", JVal.obj [("label", JVal.str "X")])].map
        (Prod.fst : String × JVal → String)).Nodup) ∧
    ([("X", JVal.obj [("label", JVal.str "X")]),
      ("X #2", JVal.obj [("label", JVal.str "X")]),
      ("X #3", JVal.obj [("label", JVal.str "X")])].length =
      [JVal.obj [("label", JVal.str "X")], JVal.obj [("label", JVal.str "X")],
       JVal.obj [("label", JVal.str "X")]].length) :=
  ⟨C1_label_map.1
      [.obj [("label", .str "X")], .obj [("label", .str "X")],
       .obj [("label", .str "X")]] "label" "Tile" _ rfl,
   C1_label_map.2
      [.obj [("label", .str "X")], .obj [("label", .str "X")],
       .obj [("label", .str "X")]] "label" "Tile" "X" _ rfl rfl⟩

/-- C7: `_detect_new_rows` satisfies the three identities
`detectNewRows(rows, rows) = []`, `detectNewRows([], rows) = rows` and
`detectNewRows(rows, []) = []`. -/
theorem C7_detect_new_rows_identities :
    ∀ rows : List JVal,
      detect_new_rows rows rows = [] ∧
      detect_new_rows [] rows = rows ∧
      detect_new_rows rows [] = [] :=
  fun rows =>
    ⟨detect_new_rows_go_self rows, detect_new_rows_go_nil_left rows, rfl⟩

/-! ### `_first_diff`, the structural differ -/

theorem sizeOf_lookup? {pkv : List (String × JVal)} {k : String} {v : JVal}
    (h : JVal.lookup? pkv k = some v) : sizeOf v < sizeOf pkv := by
  induction pkv with
  | nil => simp [JVal.lookup?] at h
  | cons p rest ih =>
      obtain ⟨k', v'⟩ := p
      simp only [JVal.lookup?] at h
      split at h
      · cases h
        simp only [List.cons.sizeOf_spec, Prod.mk.sizeOf_spec]
        omega
      · have := ih h
        simp only [List.cons.sizeOf_spec, Prod.mk.sizeOf_spec]
        omega

theorem sizeOf_getElem {xs : List JVal} {i : Nat} (h : i < xs.length) :
    sizeOf xs[i] < sizeOf xs :=
  List.sizeOf_lt_of_mem (xs.getElem_mem h)

/-- The embedding of `sorted(set(prev) | set(curr), key=str)`: the
deduplicated union of the key lists, sorted by the code-point order Python
uses on strings. -/
def sortedKeyUnion (pkv ckv : List (String × JVal)) : List String :=
  pySorted strLe ((pkv.map Prod.fst ++ ckv.map Prod.fst).dedup)

mutual

/-- `_first_diff(prev, curr, path)`: first leaf divergence in the
deterministic traversal order — sorted key union on dicts (skipping `"__"`
keys while the accumulated path is empty, i.e. at the root), index order on
lists, `!=` on everything else (including tuples and kind mismatches).
Python's `None` results are embedded as `JVal.null`. -/
def first_diff : JVal → JVal → String → Option (String × JVal × JVal)
  | .obj pkv, .obj ckv, path => fd_keys pkv ckv (sortedKeyUnion pkv ckv) path
  | .arr xs, .arr ys, path =>
      fd_idx xs ys (List.range (max xs.length ys.length)) path
  | p, c, path =>
      if p = c then none else some (if path = "" then "root" else path, p, c)
termination_by p c path => (sizeOf p + 1, 0)
decreasing_by
  all_goals
    apply Prod.Lex.left
    simp only [JVal.obj.sizeOf_spec, JVal.arr.sizeOf_spec]
    omega

/-- The key loop of the dict case of `_first_diff`. -/
def fd_keys (pkv ckv : List (String × JVal)) :
    List String → String → Option (String × JVal × JVal)
  | [], _ => none
  | k :: rest, path =>
      if path = "" && pyStartsWith k "__" then fd_keys pkv ckv rest path
      else
        let newPath := if path = "" then k else path ++ "." ++ k
        match hv : JVal.lookup? pkv k, hw : JVal.lookup? ckv k with
        | none, some w => some (newPath, .null, w)
        | some v, none => some (newPath, v, .null)
        | some v, some w =>
            match first_diff v w newPath with
            | some d => some d
            | none => fd_keys pkv ckv rest path
        | none, none => fd_keys pkv ckv rest path
termination_by ks path => (sizeOf pkv + 1, ks.length + 1)
decreasing_by
  all_goals
    first
      | (apply Prod.Lex.right
         simp only [List.length_cons]
         omega)
      | (apply Prod.Lex.left
         have h1 := sizeOf_lookup? hv
         omega)

/-- The index loop of the list case of `_first_diff`. -/
def fd_idx (xs ys : List JVal) :
    List Nat → String → Option (String × JVal × JVal)
  | [], _ => none
  | i :: rest, path =>
      let newPath := if path = "" then "[" ++ toString i ++ "]"
        else path ++ "[" ++ toString i ++ "]"
      if hx : i < xs.length then
        if hy : i < ys.length then
          match first_diff xs[i] ys[i] newPath with
          | some d => some d
          | none => fd_idx xs ys rest path
        else some (newPath, xs[i], .null)
      else
        if hy : i < ys.length then some (newPath, .null, ys[i])
        else fd_idx xs ys rest path
termination_by is path => (sizeOf xs + 1, is.length + 1)
decreasing_by
  all_goals
    first
      | (apply Prod.Lex.right
         simp only [List.length_cons]
         omega)
      | (apply Prod.Lex.left
         have h1 := sizeOf_getElem hx
         omega)

end

/-- `diff_changed(prev, curr)`: canonical-serialization inequality. -/
def diff_changed (prev curr : JVal) : Bool :=
  dumpsCanon prev != dumpsCanon curr

theorem fd_keys_nil (pkv ckv : List (String × JVal)) (path : String) :
    fd_keys pkv ckv [] path = none := by
  rw [fd_keys]

/-- Non-dependent unfolding of one step of the key loop, convenient for
computing `first_diff` on concrete documents. -/
theorem fd_keys_cons (pkv ckv : List (String × JVal)) (k : String)
    (rest : List String) (path : String) :
    fd_keys pkv ckv (k :: rest) path =
      if path = "" && pyStartsWith k "__" then fd_keys pkv ckv rest path
      else
        match JVal.lookup? pkv k, JVal.lookup? ckv k with
        | none, some w =>
            some ((if path = "" then k else path ++ "." ++ k), JVal.null, w)
        | some v, none =>
            some ((if path = "" then k else path ++ "." ++ k), v, JVal.null)
        | some v, some w =>
            (match first_diff v w (if path = "" then k
                else path ++ "." ++ k) with
             | some d => some d
             | none => fd_keys pkv ckv rest path)
        | none, none => fd_keys pkv ckv rest path := by
  rw [fd_keys]
  by_cases hskip : (path = "" && pyStartsWith k "__") = true
  · rw [if_pos hskip, if_pos hskip]
  · rw [if_neg hskip, if_neg hskip]
    cases hv : JVal.lookup? pkv k <;> cases hw : JVal.lookup? ckv k <;> simp

theorem fd_keys_self (pkv : List (String × JVal))
    (ih : ∀ (k : String) (v : JVal), JVal.lookup? pkv k = some v →
      ∀ p, first_diff v v p = none) :
    ∀ (ks : List String) (path : String), fd_keys pkv pkv ks path = none := by
  intro ks
  induction ks with
  | nil => intro path; rw [fd_keys]
  | cons k rest ihks =>
      intro path
      rw [fd_keys]
      by_cases hskip : (path = "" && pyStartsWith k "__") = true
      · rw [if_pos hskip]
        exact ihks path
      · rw [if_neg hskip]
        cases hkv : JVal.lookup? pkv k with
        | none => simp only [hkv]; exact ihks path
        | some v =>
            simp only [hkv, ih k v hkv]
            exact ihks path

theorem fd_idx_self (xs : List JVal)
    (ih : ∀ (i : Nat) (h : i < xs.length), ∀ p, first_diff xs[i] xs[i] p = none) :
    ∀ (is : List Nat) (path : String), fd_idx xs xs is path = none := by
  intro is
  induction is with
  | nil => intro path; rw [fd_idx]
  | cons i rest ihis =>
      intro path
      rw [fd_idx]
      by_cases hx : i < xs.length
      · simp only [hx, dif_pos, ih i hx]
        exact ihis path
      · simp only [hx, dif_neg, not_false_iff]
        exact ihis path

theorem first_diff_self : ∀ (d : JVal) (path : String),
    first_diff d d path = none := by
  suffices H : ∀ (n : Nat) (d : JVal), sizeOf d < n →
      ∀ path, first_diff d d path = none by
    exact fun d path => H (sizeOf d + 1) d (by omega) path
  intro n
  induction n using Nat.strong_induction_on with
  | _ n ihn =>
      intro d hd path
      match d with
      | .null => rw [first_diff] <;> simp
      | .bool b => rw [first_diff] <;> simp
      | .num m => rw [first_diff] <;> simp
      | .str s => rw [first_diff] <;> simp
      | .tup xs => rw [first_diff] <;> simp
      | .obj kvs =>
          rw [first_diff]
          apply fd_keys_self
          intro k v hkv p
          have h1 : sizeOf v < sizeOf kvs := sizeOf_lookup? hkv
          have h2 : sizeOf kvs < sizeOf (JVal.obj kvs) := by
            simp only [JVal.obj.sizeOf_spec]; omega
          exact ihn (sizeOf v + 1) (by omega) v (by omega) p
      | .arr xs =>
          rw [first_diff]
          apply fd_idx_self
          intro i hi p
          have h1 : sizeOf xs[i] < sizeOf xs := sizeOf_getElem hi
          have h2 : sizeOf xs < sizeOf (JVal.arr xs) := by
            simp only [JVal.arr.sizeOf_spec]; omega
          exact ihn (sizeOf xs[i] + 1) (by omega) xs[i] (by omega) p

/-- C6: the structural differ and the canonical-serialization equality are
reflexive: `_first_diff(d, d)` is absent and `diff_changed(d, d)` is false
for every document `d`. -/
theorem C6_reflexivity :
    ∀ d : JVal, first_diff d d "" = none ∧ diff_changed d d = false :=
  fun d => ⟨first_diff_self d "", by simp [diff_changed]⟩

/-! ### Differing at exactly one leaf path -/

/-- One step of a document path: a dict key or a list index. -/
inductive PStep : Type where
  | key (k : String) : PStep
  | idx (i : Nat) : PStep
deriving DecidableEq

/-- Path extension exactly as `_first_diff` renders it. -/
def extendPath (path : String) : PStep → String
  | .key k => if path = "" then k else path ++ "." ++ k
  | .idx i =>
      if path = "" then "[" ++ toString i ++ "]"
      else path ++ "[" ++ toString i ++ "]"

/-- Render a step list starting from an accumulated path. -/
def renderFrom (path : String) : List PStep → String
  | [] => path
  | s :: rest => renderFrom (extendPath path s) rest

/-- The `path or "root"` of the source's scalar case. -/
def orRoot (s : String) : String := if s = "" then "root" else s

/-- The shapes `_first_diff` treats as a leaf: not dict-vs-dict and not
list-vs-list. -/
def leafShape (a b : JVal) : Bool :=
  !(a.isObj && b.isObj) && !(a.isArr && b.isArr)

/-- `DiffAt a b p before after`: the documents `a` and `b` agree everywhere
except along the single leaf path `p`, where `a` holds `before` and `b`
holds `after`.  Maps must have identical key sequences with all other keys
bound to equal values; lists must have equal lengths with all other indices
equal. -/
inductive DiffAt : JVal → JVal → List PStep → JVal → JVal → Prop where
  | leaf {a b : JVal} (hne : a ≠ b) (hshape : leafShape a b = true) :
      DiffAt a b [] a b
  | key {pkv ckv : List (String × JVal)} {k : String} {v w : JVal}
      {p : List PStep} {before after : JVal}
      (hkeys : pkv.map Prod.fst = ckv.map Prod.fst)
      (hv : JVal.lookup? pkv k = some v) (hw : JVal.lookup? ckv k = some w)
      (hothers : ∀ k', k' ≠ k → JVal.lookup? pkv k' = JVal.lookup? ckv k')
      (hrec : DiffAt v w p before after) :
      DiffAt (.obj pkv) (.obj ckv) (.key k :: p) before after
  | idx {xs ys : List JVal} {i : Nat} {p : List PStep} {before after : JVal}
      (hlen : xs.length = ys.length)
      (hi : i < xs.length) (hj : i < ys.length)
      (hothers : ∀ j (hjx : j < xs.length) (hjy : j < ys.length),
        j ≠ i → xs[j] = ys[j])
      (hrec : DiffAt xs[i] ys[i] p before after) :
      DiffAt (.arr xs) (.arr ys) (.idx i :: p) before after

/-- The amended side condition for C5: the first step of the path must not be
an empty dict key nor one starting with the reserved `"__"` marker (which
`_first_diff` skips while the accumulated path is empty). -/
def headStrict : List PStep → Prop
  | .key k :: _ => pyStartsWith k "__" = false ∧ k ≠ ""
  | _ => True

theorem string_ne_empty_of_data {s : String} (h : s.data ≠ []) : s ≠ "" := by
  intro hs
  apply h
  rw [hs]

theorem append_ne_empty_left {a b : String} (h : a ≠ "") : a ++ b ≠ "" := by
  apply string_ne_empty_of_data
  rw [string_append_data]
  intro hc
  rcases List.append_eq_nil.mp hc with ⟨h1, _⟩
  apply h
  cases a with
  | mk d => simp at h1; rw [h1]

theorem extendPath_ne_empty {path : String} {s : PStep}
    (h : path = "" → (match s with | .key k => k ≠ "" | .idx _ => True)) :
    extendPath path s ≠ "" := by
  cases s with
  | key k =>
      by_cases hp : path = ""
      · simpa [extendPath, hp] using h hp
      · simp only [extendPath, hp, if_neg, if_false]
        exact append_ne_empty_left (append_ne_empty_left hp)
  | idx i =>
      by_cases hp : path = ""
      · simp only [extendPath, hp, if_pos, if_true]
        apply string_ne_empty_of_data
        simp [string_append_data]
      · simp only [extendPath, hp, if_neg, if_false]
        exact append_ne_empty_left (append_ne_empty_left (append_ne_empty_left hp))

theorem lookup?_mem_keys {pkv : List (String × JVal)} {k : String} {v : JVal}
    (h : JVal.lookup? pkv k = some v) : k ∈ pkv.map Prod.fst := by
  induction pkv with
  | nil => simp [JVal.lookup?] at h
  | cons p rest ih =>
      obtain ⟨k', v'⟩ := p
      simp only [JVal.lookup?] at h
      split at h
      · subst ‹k' = k›
        simp
      · simpa using Or.inr (ih h)

/-- The key loop returns the body's result at `k` when every other listed key
contributes nothing; `fd_keys pkv ckv [k'] path` is exactly the body at `k'`
(its fall-through continues into the empty list, i.e. `none`). -/
theorem fd_keys_loop {pkv ckv : List (String × JVal)} {k : String}
    {path : String} {res : String × JVal × JVal} :
    ∀ {ks : List String}, k ∈ ks →
      fd_keys pkv ckv [k] path = some res →
      (∀ k' ∈ ks, k' ≠ k → fd_keys pkv ckv [k'] path = none) →
      fd_keys pkv ckv ks path = some res := by
  intro ks
  induction ks with
  | nil => intro hmem; exact absurd hmem (by simp)
  | cons k0 rest ih =>
      intro hmem hbody hothers
      by_cases hk0 : k0 = k
      · subst hk0
        rw [fd_keys_cons]
        rw [fd_keys_cons, fd_keys_nil] at hbody
        by_cases hskip : (path = "" && pyStartsWith k0 "__") = true
        · rw [if_pos hskip] at hbody ⊢
          exact absurd hbody (by simp)
        · rw [if_neg hskip] at hbody ⊢
          cases hv : JVal.lookup? pkv k0 with
          | none =>
              cases hw : JVal.lookup? ckv k0 with
              | none =>
                  rw [hv, hw] at hbody
                  exact Option.noConfusion hbody
              | some w =>
                  rw [hv, hw] at hbody
                  exact hbody
          | some v =>
              cases hw : JVal.lookup? ckv k0 with
              | none =>
                  rw [hv, hw] at hbody
                  exact hbody
              | some w =>
                  rw [hv, hw] at hbody
                  have hbody' : (match first_diff v w
                      (if path = "" then k0 else path ++ "." ++ k0) with
                    | some d => some d
                    | none => (none : Option (String × JVal × JVal))) =
                      some res := hbody
                  show (match first_diff v w
                      (if path = "" then k0 else path ++ "." ++ k0) with
                    | some d => some d
                    | none => fd_keys pkv ckv rest path) = some res
                  cases hfd : first_diff v w
                      (if path = "" then k0 else path ++ "." ++ k0) with
                  | none =>
                      rw [hfd] at hbody'
                      exact Option.noConfusion hbody'
                  | some d =>
                      rw [hfd] at hbody'
                      exact hbody'
      · have hmem' : k ∈ rest := by
          rcases List.mem_cons.mp hmem with h | h
          · exact absurd h.symm hk0
          · exact h
        have hk0none : fd_keys pkv ckv [k0] path = none :=
          hothers k0 (by simp) hk0
        have hrest : fd_keys pkv ckv rest path = some res :=
          ih hmem' hbody (fun k' hk' hne => hothers k' (by simp [hk']) hne)
        rw [fd_keys_cons]
        rw [fd_keys_cons, fd_keys_nil] at hk0none
        by_cases hskip : (path = "" && pyStartsWith k0 "__") = true
        · rw [if_pos hskip]
          exact hrest
        · rw [if_neg hskip] at hk0none ⊢
          cases hv : JVal.lookup? pkv k0 with
          | none =>
              cases hw : JVal.lookup? ckv k0 with
              | none => exact hrest
              | some w =>
                  rw [hv, hw] at hk0none
                  exact Option.noConfusion hk0none
          | some v =>
              cases hw : JVal.lookup? ckv k0 with
              | none =>
                  rw [hv, hw] at hk0none
                  exact Option.noConfusion hk0none
              | some w =>
                  rw [hv, hw] at hk0none
                  have hk0none' : (match first_diff v w
                      (if path = "" then k0 else path ++ "." ++ k0) with
                    | some d => some d
                    | none => (none : Option (String × JVal × JVal))) =
                      none := hk0none
                  show (match first_diff v w
                      (if path = "" then k0 else path ++ "." ++ k0) with
                    | some d => some d
                    | none => fd_keys pkv ckv rest path) = some res
                  cases hfd : first_diff v w
                      (if path = "" then k0 else path ++ "." ++ k0) with
                  | none => exact hrest
                  | some d =>
                      rw [hfd] at hk0none'
                      exact Option.noConfusion hk0none'

theorem fd_idx_nil (xs ys : List JVal) (path : String) :
    fd_idx xs ys [] path = none := by
  rw [fd_idx]

/-- Analogue of `fd_keys_loop` for the index loop. -/
theorem fd_idx_loop {xs ys : List JVal} {i : Nat} {path : String}
    {res : String × JVal × JVal} :
    ∀ {is : List Nat}, i ∈ is →
      fd_idx xs ys [i] path = some res →
      (∀ j ∈ is, j ≠ i → fd_idx xs ys [j] path = none) →
      fd_idx xs ys is path = some res := by
  intro is
  induction is with
  | nil => intro hmem; exact absurd hmem (by simp)
  | cons i0 rest ih =>
      intro hmem hbody hothers
      by_cases hi0 : i0 = i
      · subst hi0
        rw [fd_idx]
        rw [fd_idx] at hbody
        by_cases hx : i0 < xs.length
        · rw [dif_pos hx] at hbody ⊢
          by_cases hy : i0 < ys.length
          · rw [dif_pos hy] at hbody ⊢
            have hbody' : (match first_diff xs[i0] ys[i0]
                (if path = "" then "[" ++ toString i0 ++ "]"
                 else path ++ "[" ++ toString i0 ++ "]") with
              | some d => some d
              | none => fd_idx xs ys [] path) = some res := hbody
            rw [fd_idx_nil] at hbody'
            show (match first_diff xs[i0] ys[i0]
                (if path = "" then "[" ++ toString i0 ++ "]"
                 else path ++ "[" ++ toString i0 ++ "]") with
              | some d => some d
              | none => fd_idx xs ys rest path) = some res
            cases hfd : first_diff xs[i0] ys[i0]
                (if path = "" then "[" ++ toString i0 ++ "]"
                 else path ++ "[" ++ toString i0 ++ "]") with
            | none =>
                rw [hfd] at hbody'
                exact Option.noConfusion hbody'
            | some d =>
                rw [hfd] at hbody'
                exact hbody'
          · rw [dif_neg hy] at hbody ⊢
            exact hbody
        · rw [dif_neg hx] at hbody ⊢
          by_cases hy : i0 < ys.length
          · rw [dif_pos hy] at hbody ⊢
            exact hbody
          · rw [dif_neg hy] at hbody ⊢
            rw [fd_idx_nil] at hbody
            exact Option.noConfusion hbody
      · have hmem' : i ∈ rest := by
          rcases List.mem_cons.mp hmem with h | h
          · exact absurd h.symm hi0
          · exact h
        have hi0none : fd_idx xs ys [i0] path = none :=
          hothers i0 (by simp) hi0
        have hrest : fd_idx xs ys rest path = some res :=
          ih hmem' hbody (fun j hj hne => hothers j (by simp [hj]) hne)
        rw [fd_idx]
        rw [fd_idx] at hi0none
        by_cases hx : i0 < xs.length
        · rw [dif_pos hx] at hi0none ⊢
          by_cases hy : i0 < ys.length
          · rw [dif_pos hy] at hi0none ⊢
            have hi0none' : (match first_diff xs[i0] ys[i0]
                (if path = "" then "[" ++ toString i0 ++ "]"
                 else path ++ "[" ++ toString i0 ++ "]") with
              | some d => some d
              | none => fd_idx xs ys [] path) = none := hi0none
            rw [fd_idx_nil] at hi0none'
            show (match first_diff xs[i0] ys[i0]
                (if path = "" then "[" ++ toString i0 ++ "]"
                 else path ++ "[" ++ toString i0 ++ "]") with
              | some d => some d
              | none => fd_idx xs ys rest path) = some res
            cases hfd : first_diff xs[i0] ys[i0]
                (if path = "" then "[" ++ toString i0 ++ "]"
                 else path ++ "[" ++ toString i0 ++ "]") with
            | none => exact hrest
            | some d =>
                rw [hfd] at hi0none'
                exact Option.noConfusion hi0none'
          · rw [dif_neg hy] at hi0none
            exact Option.noConfusion hi0none
        · rw [dif_neg hx] at hi0none ⊢
          by_cases hy : i0 < ys.length
          · rw [dif_pos hy] at hi0none
            exact Option.noConfusion hi0none
          · rw [dif_neg hy] at hi0none ⊢
            exact hrest

/-- Core of C5: where two documents differ at exactly one leaf path whose
first step survives the root-level `"__"` skip, `_first_diff` reports exactly
the rendered path with the two values. -/
theorem first_diff_at {a b : JVal} {p : List PStep} {before after : JVal}
    (hd : DiffAt a b p before after) :
    ∀ path : String, (path = "" → headStrict p) →
      first_diff a b path = some (orRoot (renderFrom path p), before, after) := by
  induction hd with
  | leaf hne hshape =>
      rename_i a b
      intro path hpath
      rw [first_diff.eq_def]
      cases a <;> cases b <;>
        simp_all [leafShape, JVal.isObj, JVal.isArr, renderFrom, orRoot]
  | key hkeys hv hw hothers hrec ih =>
      rename_i pkv ckv k v w p before after
      intro path hpath
      have hknotempty : path = "" → k ≠ "" := fun h0 => ((hpath h0).2)
      have hnewpath : (if path = "" then k else path ++ "." ++ k) ≠ "" := by
        by_cases hp0 : path = ""
        · simpa [hp0] using hknotempty hp0
        · simp only [hp0, if_neg, if_false]
          exact append_ne_empty_left (append_ne_empty_left hp0)
      have hih := ih (if path = "" then k else path ++ "." ++ k)
        (fun h0 => absurd h0 hnewpath)
      have hrender : renderFrom path (.key k :: p) =
          renderFrom (if path = "" then k else path ++ "." ++ k) p := rfl
      rw [first_diff]
      apply fd_keys_loop (k := k)
      · rw [sortedKeyUnion]
        rw [mem_pySorted]
        rw [List.mem_dedup]
        exact List.mem_append.mpr (Or.inl (lookup?_mem_keys hv))
      · rw [fd_keys_cons, fd_keys_nil]
        have hnoskip : ¬(path = "" && pyStartsWith k "__") = true := by
          intro hcontra
          simp only [Bool.and_eq_true, decide_eq_true_eq] at hcontra
          obtain ⟨hp0, hsw⟩ := hcontra
          have hhead := hpath hp0
          rw [(hhead : headStrict (.key k :: p)).1] at hsw
          exact Bool.noConfusion hsw
        rw [if_neg hnoskip, hv, hw]
        have hgoal : (match (some v : Option JVal), (some w : Option JVal) with
          | none, some w' =>
              some ((if path = "" then k else path ++ "." ++ k), JVal.null, w')
          | some v', none =>
              some ((if path = "" then k else path ++ "." ++ k), v', JVal.null)
          | some v', some w' =>
              (match first_diff v' w'
                  (if path = "" then k else path ++ "." ++ k) with
               | some d => some d
               | none => (none : Option (String × JVal × JVal)))
          | none, none => (none : Option (String × JVal × JVal))) =
            (match first_diff v w
                (if path = "" then k else path ++ "." ++ k) with
             | some d => some d
             | none => (none : Option (String × JVal × JVal))) := rfl
        rw [hgoal, hih, hrender]
      · intro k' hk' hne
        rw [fd_keys_cons, fd_keys_nil]
        by_cases hskip : (path = "" && pyStartsWith k' "__") = true
        · rw [if_pos hskip]
        · rw [if_neg hskip]
          have heq := hothers k' hne
          cases hlk : JVal.lookup? pkv k' with
          | none =>
              have hlk2 : JVal.lookup? ckv k' = none := by rw [← heq, hlk]
              rw [hlk2]
          | some u =>
              have hlk2 : JVal.lookup? ckv k' = some u := by rw [← heq, hlk]
              rw [hlk2]
              have hrfl := first_diff_self u
                (if path = "" then k' else path ++ "." ++ k')
              show (match first_diff u u
                  (if path = "" then k' else path ++ "." ++ k') with
                | some d => some d
                | none => (none : Option (String × JVal × JVal))) = none
              rw [hrfl]
  | idx hlen hi hj hothers hrec ih =>
      rename_i xs ys i p before after
      intro path hpath
      have hnewpath : (if path = "" then "[" ++ toString i ++ "]"
          else path ++ "[" ++ toString i ++ "]") ≠ "" := by
        by_cases hp0 : path = ""
        · simp only [hp0, if_pos, if_true]
          apply string_ne_empty_of_data
          simp [string_append_data]
        · simp only [hp0, if_neg, if_false]
          exact append_ne_empty_left (append_ne_empty_left
            (append_ne_empty_left hp0))
      have hih := ih (if path = "" then "[" ++ toString i ++ "]"
          else path ++ "[" ++ toString i ++ "]")
        (fun h0 => absurd h0 hnewpath)
      have hrender : renderFrom path (.idx i :: p) =
          renderFrom (if path = "" then "[" ++ toString i ++ "]"
            else path ++ "[" ++ toString i ++ "]") p := rfl
      rw [first_diff]
      apply fd_idx_loop (i := i)
      · rw [hlen, Nat.max_self, List.mem_range]
        exact hj
      · rw [fd_idx]
        rw [dif_pos hi, dif_pos hj, fd_idx_nil]
        have hgoal : (match first_diff xs[i] ys[i]
            (if path = "" then "[" ++ toString i ++ "]"
             else path ++ "[" ++ toString i ++ "]") with
          | some d => some d
          | none => (none : Option (String × JVal × JVal))) =
            (match first_diff xs[i] ys[i]
                (if path = "" then "[" ++ toString i ++ "]"
                 else path ++ "[" ++ toString i ++ "]") with
             | some d => some d
             | none => (none : Option (String × JVal × JVal))) := rfl
        rw [hih, hrender]
      · intro j hjmem hjne
        rw [hlen, Nat.max_self, List.mem_range] at hjmem
        have hjx : j < xs.length := hlen ▸ hjmem
        rw [fd_idx]
        rw [dif_pos hjx, dif_pos hjmem, fd_idx_nil]
        have heq := hothers j hjx hjmem hjne
        show (match first_diff xs[j] ys[j]
            (if path = "" then "[" ++ toString j ++ "]"
             else path ++ "[" ++ toString j ++ "]") with
          | some d => some d
          | none => (none : Option (String × JVal × JVal))) = none
        rw [heq, first_diff_self]

theorem lookup_single_ne {k0 : String} {v1 v2 : JVal} {k' : String}
    (hk : k' ≠ k0) :
    JVal.lookup? [(k0, v1)] k' = JVal.lookup? [(k0, v2)] k' := by
  simp only [JVal.lookup?]
  rw [if_neg fun h => hk h.symm, if_neg fun h => hk h.symm]

/-- C5 counterexample: the documents `{"__x": "1"}` and `{"__x": "2"}` differ
at exactly the leaf path `__x`, yet `_first_diff` returns absent because the
root-level `"__"` skip discards the key. -/
theorem C5_counterexample :
    DiffAt (.obj [("__x", .str "1")]) (.obj [("__x", .str "2")])
        [.key "__x"] (.str "1") (.str "2") ∧
      first_diff (.obj [("__x", .str "1")]) (.obj [("__x", .str "2")]) "" =
        none := by
  constructor
  · exact DiffAt.key rfl (by decide) (by decide)
      (fun k' hk => lookup_single_ne hk)
      (DiffAt.leaf (by decide) (by decide))
  · rw [first_diff]
    have h : sortedKeyUnion [("__x", JVal.str "1")] [("__x", JVal.str "2")] =
        ["__x"] := by decide
    rw [h, fd_keys_cons, if_pos (by decide), fd_keys_nil]

/-- C5 (amended): for documents differing at exactly one leaf path `p`,
`_first_diff` returns exactly the rendered `p` with the before value from the
first document and the after value from the second, provided the first step
of `p` is not a dict key that is empty or begins with the reserved `"__"`
prefix (such keys are skipped while the accumulated path is empty, i.e. at
the top level, as the counterexample shows). -/
theorem C5_first_diff_exact (a b : JVal) (p : List PStep) (before after : JVal)
    (hdiff : DiffAt a b p before after) (hhead : headStrict p) :
    first_diff a b "" = some (orRoot (renderFrom "" p), before, after) :=
  first_diff_at hdiff "" fun _ => hhead

/-- C5 witness: `{"a": "1"}` vs `{"a": "2"}` differ exactly at the key `a`;
`_first_diff` reports path `a` with before `"1"` and after `"2"`. -/
theorem C5_witness :
    first_diff (.obj [("a", .str "1")]) (.obj [("a", .str "2")]) "" =
      some (orRoot (renderFrom "" [.key "a"]), .str "1", .str "2") :=
  C5_first_diff_exact _ _ _ _ _
    (DiffAt.key rfl (by decide) (by decide)
      (fun k' hk => lookup_single_ne hk)
      (DiffAt.leaf (by decide) (by decide)))
    ⟨by decide, by decide⟩

/-! ### Monadic list helpers -/

def mapME (f : α → Except String β) : List α → Except String (List β)
  | [] => .ok []
  | x :: xs => do
      let y ← f x
      let ys ← mapME f xs
      return y :: ys

def flatMapME (f : α → Except String (List String)) :
    List α → Except String (List String)
  | [] => .ok []
  | x :: xs => do
      let ls ← f x
      let rest ← flatMapME f xs
      return ls ++ rest

def foldlME (f : σ → α → Except String σ) : σ → List α → Except String σ
  | s, [] => .ok s
  | s, x :: xs => do
      let s' ← f s x
      foldlME f s' xs

/-- Python `x or y`. -/
def pyOr (a b : JVal) : JVal := if a.truthy then a else b

/-! ### `_summarize_tile_changes` -/

/-- The body of the per-key loop of `_summarize_tile_changes`.  Tile entries
are dicts by the time the label maps exist (a non-dict entry already raised
inside `_build_label_map`), and Python's truthiness decides the
added/removed/compared branches. -/
def tile_key_lines (pm cm : List (String × JVal)) (key : String) :
    Except String (List String) :=
  match JVal.lookup? pm key, JVal.lookup? cm key with
  | some p, some c =>
      if p.truthy && c.truthy then do
        let pv ← p.pyGet "value"
        let cv ← c.pyGet "value"
        let pp ← p.pyGet "percent"
        let cp ← c.pyGet "percent"
        return (if pv ≠ cv then
            [puaStr ++ "üìä " ++ key ++ " : " ++ format_value pv ++ " -> " ++
              format_value cv] else []) ++
          (if pp ≠ cp then
            [puaStr ++ "üìà " ++ key ++ " % : " ++ format_value pp ++ " -> " ++
              format_value cp] else [])
      else if c.truthy then do
        let cv ← c.pyGet "value"
        return [puaStr ++ "üÜï " ++ key ++ " : - -> " ++ format_value cv]
      else if p.truthy then do
        let pv ← p.pyGet "value"
        return ["‚ùå " ++ key ++ " : " ++ format_value pv ++ " -> -"]
      else return []
  | none, some c =>
      if c.truthy then do
        let cv ← c.pyGet "value"
        return [puaStr ++ "üÜï " ++ key ++ " : - -> " ++ format_value cv]
      else return []
  | some p, none =>
      if p.truthy then do
        let pv ← p.pyGet "value"
        return ["‚ùå " ++ key ++ " : " ++ format_value pv ++ " -> -"]
      else return []
  | none, none => return []

/-- The key order of the summarizer loops: current keys first, then
previous-only keys. -/
def unionKeys (cm pm : List (String × JVal)) : List String :=
  cm.map Prod.fst ++
    (pm.map Prod.fst).filter fun k => !(JVal.lookup? cm k).isSome

/-- `_summarize_tile_changes(prev_tiles, curr_tiles)`. -/
def summarize_tile_changes (prevTiles currTiles : List JVal) :
    Except String (List String) := do
  let pm ← build_label_map prevTiles "label" "Tile"
  let cm ← build_label_map currTiles "label" "Tile"
  flatMapME (tile_key_lines pm cm) (unionKeys cm pm)

/-! ### `_summarize_table_changes` -/

/-- `t.get("rows", [])` guarded by `isinstance(..., list)` as in the source:
a present non-list value degrades to `[]`. -/
def rowsListOf (t : JVal) : Except String (List JVal) := do
  let r ← t.pyGetD "rows" (.arr [])
  return (match r with | .arr xs => xs | _ => [])

/-- `len(t.get("rows", []))` — raises `TypeError` when the `rows` value is
present but not sized. -/
def rowsLen (t : JVal) : Except String Nat := do
  let r ← t.pyGetD "rows" (.arr [])
  r.pyLen

/-- The body of the per-key loop of `_summarize_table_changes`. -/
def table_key_lines (pm cm : List (String × JVal)) (key : String) :
    Except String (List String) :=
  match JVal.lookup? pm key, JVal.lookup? cm key with
  | some p, some c =>
      if p.truthy && c.truthy then do
        let pr ← rowsLen p
        let cr ← rowsLen c
        let countLine := if pr ≠ cr then
          [puaStr ++ "üìÑ " ++ key ++ " : " ++ toString pr ++ " lignes -> " ++
            toString cr ++ " lignes"] else []
        let chv ← c.pyGet "heading"
        let phv ← p.pyGet "heading"
        let heading := pyStr (pyOr chv (pyOr phv (.str "")))
        if cr > pr && pySubstr "relev√©" (pyLower heading) then do
          let prl ← rowsListOf p
          let crl ← rowsListOf c
          let rowLines := ((detect_new_rows prl crl).filter
              fun r => !looks_like_header_row r).filterMap fun r =>
            let desc := describe_table_row r
            if desc.data.isEmpty then none
            else some ("‚ûï " ++ heading ++ " : " ++ desc)
          return countLine ++ rowLines
        else return countLine
      else if c.truthy then do
        let cr ← rowsLen c
        return [puaStr ++ "üìÑ " ++ key ++ " : 0 lignes -> " ++ toString cr ++
          " lignes"]
      else if p.truthy then do
        let pr ← rowsLen p
        return [puaStr ++ "üìÑ " ++ key ++ " : " ++ toString pr ++
          " lignes -> 0 lignes"]
      else return []
  | none, some c =>
      if c.truthy then do
        let cr ← rowsLen c
        return [puaStr ++ "üìÑ " ++ key ++ " : 0 lignes -> " ++ toString cr ++
          " lignes"]
      else return []
  | some p, none =>
      if p.truthy then do
        let pr ← rowsLen p
        return [puaStr ++ "üìÑ " ++ key ++ " : " ++ toString pr ++
          " lignes -> 0 lignes"]
      else return []
  | none, none => return []

/-- `_summarize_table_changes(prev_tables, curr_tables)`. -/
def summarize_table_changes (prevTables currTables : List JVal) :
    Except String (List String) := do
  let prevHeads ← mapME (fun t => t.pyGet "heading") prevTables
  let currHeads ← mapME (fun t => t.pyGet "heading") currTables
  let headsLine := if prevHeads ≠ currHeads then
    [puaStr ++ "üóÇÔ∏è Tableaux : " ++ stringify_value (.arr prevHeads) 80 ++
      " -> " ++ stringify_value (.arr currHeads) 80] else []
  let pm ← build_label_map prevTables "heading" "Table"
  let cm ← build_label_map currTables "heading" "Table"
  let ls ← flatMapME (table_key_lines pm cm) (unionKeys cm pm)
  return headsLine ++ ls

/-! ### `_humanize_diff_path` -/

/-- Greedy decimal digit parse (at least one digit). -/
def parseDigits (cs : List Char) : Option (Nat × List Char) :=
  let ds := cs.takeWhile fun c => c.isDigit
  if ds.isEmpty then none
  else some (ds.foldl (fun a c => 10 * a + (c.toNat - 48)) 0,
    cs.dropWhile fun c => c.isDigit)

def stripPre (pre cs : List Char) : Option (List Char) :=
  if pre.isPrefixOf cs then some (cs.drop pre.length) else none

/-- Full match of `_TABLE_PATH_RE`, i.e.
`tables\[(\d+)]\.rows\[(\d+)](?:\.([^.]+))?` over the whole path. -/
def parseTablePath (path : String) : Option (Nat × Nat × Option String) := do
  let r1 ← stripPre "tables[".data path.data
  let (t, r2) ← parseDigits r1
  let r3 ← stripPre "].rows[".data r2
  let (r, r4) ← parseDigits r3
  let r5 ← stripPre "]".data r4
  match r5 with
  | [] => some (t, r, none)
  | '.' :: rest =>
      if rest.isEmpty || rest.contains '.' then none
      else some (t, r, some ⟨rest⟩)
  | _ => none

/-- `row.get(key)` for a key that is an arbitrary value: raises `TypeError`
on unhashable keys (lists, dicts), otherwise only string keys can hit. -/
def pyDictGetJ (kvs : List (String × JVal)) (key : JVal) :
    Except String (Option JVal) :=
  if key.hashable then
    .ok (match key with | .str s => JVal.lookup? kvs s | _ => none)
  else .error "TypeError"

/-- `x if isinstance(x, list) else []`: the guard applied to `rows` and
`headers` values before indexing or diffing them. -/
def listOfRows (v : JVal) : List JVal :=
  match v with
  | .arr xs => xs
  | _ => []

/-- `curr.get("tables") or prev.get("tables") or []` — note the laziness:
`prev` is only consulted when `curr`'s value is falsy. -/
def tables_or (ctb : JVal) (prev : JVal) : Except String JVal :=
  if ctb.truthy then pure ctb
  else do
    let ptb ← prev.pyGet "tables"
    pure (pyOr ptb (.arr []))

/-- The dict-row branch of `_humanize_diff_path`'s row-label search: try the
first header's cell, then any non-`col...` non-empty string value. -/
def humanize_row_label (tkvs rkvs : List (String × JVal)) :
    Except String (Option String) := do
  let headers := listOfRows ((JVal.lookup? tkvs "headers").getD (.arr []))
  let lbl1 : Option String ←
    match headers with
    | [] => pure none
    | fh :: _ => do
        let lv ← pyDictGetJ rkvs fh
        match lv with
        | some (.str s) =>
            if !s.data.isEmpty && JVal.str s ≠ fh then pure (some s)
            else pure none
        | _ => pure none
  match lbl1 with
  | some s => pure (some s)
  | none =>
      pure (rkvs.findSome? fun kv =>
        match kv.2 with
        | .str s =>
            if !s.data.isEmpty && !pyStartsWith (pyLower s) "col" then some s
            else none
        | _ => none)

/-- `_humanize_diff_path(path, prev, curr)`. -/
def humanize_diff_path (path : String) (prev curr : JVal) :
    Except String (Option String) := do
  match parseTablePath path with
  | none => return none
  | some (tIdx, rIdx, colKey) => do
      let ctb ← curr.pyGet "tables"
      let tables ← tables_or ctb prev
      match tables with
      | .arr ts =>
          match ts[tIdx]? with
          | none => return none
          | some tb =>
              match tb with
              | .obj tkvs => do
                  let heading := (JVal.lookup? tkvs "heading").getD .null
                  let rows :=
                    listOfRows ((JVal.lookup? tkvs "rows").getD (.arr []))
                  let rowv := (rows[rIdx]?).getD .null
                  let rowLabel : Option String ←
                    match rowv with
                    | .obj rkvs => humanize_row_label tkvs rkvs
                    | .arr (x :: _) =>
                        pure (match x with
                          | .str s => if !s.data.isEmpty then some s else none
                          | _ => none)
                    | .tup (x :: _) =>
                        pure (match x with
                          | .str s => if !s.data.isEmpty then some s else none
                          | _ => none)
                    | _ => pure none
                  let parts : List String :=
                    (if heading.truthy then [pyStr heading] else []) ++
                    (match rowLabel with
                      | some s => if s.data.isEmpty then [] else [s]
                      | none => []) ++
                    (match colKey with
                      | some ck =>
                          if !ck.data.isEmpty && ck ≠ "col1" && ck ≠ "col0"
                          then [ck] else []
                      | none => [])
                  return (if parts.isEmpty then none
                    else some (joinSep " ‚Äì " parts))
              | _ => return none
      | _ => return none

/-! ### `summarize_changes` -/

/-- The tail of `summarize_changes`: prepend the Œî diff line when a first
difference exists and is not already present, or fall back to the generic
sentence when nothing was produced at all. -/
def summarize_changes_post (prev curr : JVal) (baseLines : List String) :
    Option (String × JVal × JVal) → Except String (List String)
  | some (path, before, after) => do
      let friendly ← humanize_diff_path path prev curr
      let fp := match friendly with
        | some s => if s.data.isEmpty then path else s
        | none => path
      let diffLine := "Œî " ++ fp ++ " : " ++ format_value before ++ " -> " ++
        format_value after
      return if baseLines.contains diffLine then baseLines
        else diffLine :: baseLines
  | none =>
      return if baseLines.isEmpty then ["Changements d√©tect√©s."]
        else baseLines

/-- The full line list built by `summarize_changes` before the `[:7]`
truncation and the newline join. -/
def summarize_changes_list (prev curr : JVal) : Except String (List String) := do
  let ptv ← prev.pyGetD "tiles" (.arr [])
  let ctv ← curr.pyGetD "tiles" (.arr [])
  let pt ← ptv.pyIter
  let ct ← ctv.pyIter
  let tileLines ← summarize_tile_changes pt ct
  let ptbv ← prev.pyGetD "tables" (.arr [])
  let ctbv ← curr.pyGetD "tables" (.arr [])
  let ptb ← ptbv.pyIter
  let ctb ← ctbv.pyIter
  let tableLines ← summarize_table_changes ptb ctb
  let pu ← prev.pyGet "user_id"
  let cu ← curr.pyGet "user_id"
  let baseLines := tileLines ++ tableLines ++
    (if pu ≠ cu then
      [puaStr ++ "üë§ user_id : " ++ format_value pu ++ " -> " ++
        format_value cu] else [])
  summarize_changes_post prev curr baseLines (first_diff prev curr "")

/-- `summarize_changes(prev, curr)`. -/
def summarize_changes (prev : Option JVal) (curr : JVal) :
    Except String String :=
  match prev with
  | none => .ok "Premi√®re capture enregistr√©e."
  | some p => do
      let l ← summarize_changes_list p curr
      return joinNl (l.take 7)

/-- C8: with an absent previous snapshot, `summarize_changes` returns the
fixed first-capture sentence for every current document, with no further
processing. -/
theorem C8_first_capture :
    ∀ curr : JVal,
      summarize_changes none curr = .ok "Premi√®re capture enregistr√©e." :=
  fun _ => rfl

/-! ### `_normalize_amount`, `_get_tile_value`, `_summarize_cash` -/

/-- `_normalize_amount(text)`: `"-"` on falsy input, otherwise collapse
no-break spaces and whitespace runs. -/
def normalize_amount (text : JVal) : String :=
  if !text.truthy then "-"
  else joinSep " " (pySplitWs (pyReplaceChar (Char.ofNat 160) ' ' (pyStr text)).data)

/-- `_get_tile_value(tiles, label)`: first tile whose `label` equals the
needle, returning its `value`; Python's `None` result is the conflated
`null`. -/
def get_tile_value : List JVal → String → Except String JVal
  | [], _ => .ok .null
  | t :: rest, label => do
      let lv ← t.pyGet "label"
      if lv == JVal.str label then t.pyGet "value"
      else get_tile_value rest label

/-- `_summarize_cash(prev_tiles, curr_tiles)`. -/
def summarize_cash (prevTiles currTiles : List JVal) :
    Except String (Option String) := do
  let db ← get_tile_value prevTiles "Disponible"
  let da ← get_tile_value currTiles "Disponible"
  let dpb ← get_tile_value prevTiles "Dispo + Dispo prev"
  let dpa ← get_tile_value currTiles "Dispo + Dispo prev"
  let parts :=
    (if db != da && da != JVal.null then
      ["Disponible : " ++ normalize_amount db ++ " -> " ++ normalize_amount da]
     else []) ++
    (if dpb != dpa && dpa != JVal.null then
      ["Dispo+Prev : " ++ normalize_amount dpb ++ " -> " ++ normalize_amount dpa]
     else [])
  return (if parts.isEmpty then none
    else some (puaStr ++ "üí∞ " ++ joinSep " (" parts ++
      (if parts.length == 1 then "" else ")")))

/-! ### `_table_by_heading` and `_row_maps` -/

/-- `_table_by_heading(tables, needle)`. -/
def table_by_heading : List JVal → String → Except String (Option JVal)
  | [], _ => .ok none
  | t :: rest, needle => do
      let hv ← t.pyGet "heading"
      let heading := pyStr (pyOr hv (.str ""))
      if pySubstr (pyLower needle) (pyLower heading) then return some t
      else table_by_heading rest needle

/-- Membership test `k in row` for a string-keyed dict and an arbitrary key:
unhashable keys raise `TypeError`; hashable non-string keys never match. -/
def pyContainsJ (kvs : List (String × JVal)) (k : JVal) : Except String Bool :=
  if k.hashable then
    .ok (match k with | .str s => (JVal.lookup? kvs s).isSome | _ => false)
  else .error "TypeError"

/-- `row[k]` for a key known to be present (only used under a successful
membership test). -/
def rowIndexJ (kvs : List (String × JVal)) (k : JVal) : JVal :=
  match k with
  | .str s => (JVal.lookup? kvs s).getD .null
  | _ => .null

/-- `row.get(k, default)` for an arbitrary key value. -/
def pyDictGetJD (kvs : List (String × JVal)) (k : JVal) (dflt : JVal) :
    Except String JVal :=
  if k.hashable then
    .ok (match k with | .str s => (JVal.lookup? kvs s).getD dflt | _ => dflt)
  else .error "TypeError"

/-- `sep.join(parts)` over arbitrary values: raises `TypeError` unless every
part is a string. -/
def pyJoinVals (sep : String) (parts : List JVal) : Except String String :=
  if parts.all fun p => p.isStr then
    .ok (joinSep sep (parts.map fun p => match p with | .str s => s | _ => ""))
  else .error "TypeError"

/-- The key-column clause of `_row_maps`'s label choice:
`key_col and key_col in row and row[key_col] and row[key_col] != key_col`. -/
def rowLabelFromKey (keyCol : Option JVal) (rkvs : List (String × JVal)) :
    Except String (Option JVal) :=
  match keyCol with
  | some kc =>
      if kc.truthy then do
        let c ← pyContainsJ rkvs kc
        if c then
          let lv := rowIndexJ rkvs kc
          pure (if lv.truthy && lv != kc then some lv else none)
        else pure (none : Option JVal)
      else pure (none : Option JVal)
  | none => pure (none : Option JVal)

/-- The value-column clause of `_row_maps`: `val_col and val_col in row`,
yielding `row[val_col]` when it holds. -/
def rowValCandidate (valCol : Option JVal) (rkvs : List (String × JVal)) :
    Except String (Option JVal) :=
  match valCol with
  | some vc =>
      if vc.truthy then do
        let c ← pyContainsJ rkvs vc
        pure (if c then some (rowIndexJ rkvs vc) else none)
      else pure (none : Option JVal)
  | none => pure (none : Option JVal)

/-- The tail of `_row_maps`'s row loop once a truthy label `l` has been
chosen: install the row under `l` (raising `TypeError` on an unhashable
label) and pick the value from the value column, the second header, or any
other non-empty string field. -/
def row_maps_insert (keyCol valCol : Option JVal) (headers : List JVal)
    (st : List (JVal × JVal) × List (JVal × JVal))
    (rkvs : List (String × JVal)) (l : JVal) :
    Except String (List (JVal × JVal) × List (JVal × JVal)) :=
  if !l.truthy then pure st
  else if !l.hashable then throw "TypeError"
  else do
    let labels₁ := dictInsertJ st.1 l (.obj rkvs)
    let useVal ← rowValCandidate valCol rkvs
    match useVal with
    | some vv => pure (labels₁, dictInsertJ st.2 l vv)
    | none =>
        match headers with
        | _ :: second :: _ => do
            let sv ← pyDictGetJD rkvs second (.str "")
            pure (labels₁, dictInsertJ st.2 l sv)
        | _ =>
            let other := ((rkvs.findSome? fun kv =>
              match kv.2 with
              | .str s =>
                  if !s.data.isEmpty &&
                      (match keyCol with
                        | some kc => JVal.str kv.1 != kc
                        | none => true) then some (JVal.str s)
                  else none
              | _ => none).getD (.str ""))
            pure (labels₁, dictInsertJ st.2 l other)

/-- One iteration of the row loop of `_row_maps`: non-dict rows are skipped,
a truthy label is found from the key column or the first non-empty string
value, and the label is installed by `row_maps_insert`. -/
def row_maps_step (keyCol valCol : Option JVal) (headers : List JVal)
    (st : List (JVal × JVal) × List (JVal × JVal)) (row : JVal) :
    Except String (List (JVal × JVal) × List (JVal × JVal)) :=
  match row with
  | .obj rkvs => do
      let fromKey ← rowLabelFromKey keyCol rkvs
      let label : Option JVal := match fromKey with
        | some lv => some lv
        | none => rkvs.findSome? fun kv =>
            match kv.2 with
            | .str s => if !s.data.isEmpty then some (JVal.str s) else none
            | _ => none
      match label with
      | none => pure st
      | some l => row_maps_insert keyCol valCol headers st rkvs l
  | _ => pure st

/-- `_row_maps(table)`: the `(labels, values)` pair of insertion-ordered
dicts keyed by row label. -/
def row_maps (table : JVal) :
    Except String (List (JVal × JVal) × List (JVal × JVal)) := do
  let rv ← table.pyGetD "rows" (.arr [])
  let rows := match rv with | .arr xs => xs | _ => []
  let hv ← table.pyGetD "headers" (.arr [])
  let headers := match hv with | .arr xs => xs | _ => []
  foldlME (row_maps_step headers.head? headers[1]? headers) ([], []) rows

/-! ### `_summarize_synthese` -/

/-- `_table_by_heading(tables, needle) if tables else None`, the guarded
call all three table-based summarizers make. -/
def table_by_heading_opt (tables : List JVal) (needle : String) :
    Except String (Option JVal) :=
  if tables.isEmpty then pure none
  else table_by_heading tables needle

/-- `t.get("rows", []) if isinstance(t, dict) else []`. -/
def rows_if_obj (v : JVal) : Except String JVal :=
  if v.isObj then v.pyGetD "rows" (.arr [])
  else pure (JVal.arr [])


/-- `_summarize_synthese(prev_tables, curr_tables)`. -/
def summarize_synthese (prevTables currTables : List JVal) :
    Except String (Option String) := do
  let pt ← table_by_heading_opt prevTables "Synth√®se annuelle"
  let ct ← table_by_heading_opt currTables "Synth√®se annuelle"
  let ctv := ct.getD .null
  if !ctv.truthy then return none
  else do
    let ptv := pt.getD .null
    let prv ← rows_if_obj ptv
    let crv ← rows_if_obj ctv
    let pl ← prv.pyLen
    let cl ← crv.pyLen
    let delta : Int := (cl : Int) - (pl : Int)
    let pmaps ← row_maps (pyOr ptv (.obj []))
    let cmaps ← row_maps ctv
    let changes := cmaps.2.foldl (fun acc kv =>
      let before := (lookupJ? pmaps.2 kv.1).getD .null
      if before == JVal.null then
        acc ++ [pyStr kv.1 ++ " : +" ++ normalize_amount kv.2]
      else if before != kv.2 then
        acc ++ [pyStr kv.1 ++ " : " ++ normalize_amount before ++ " -> " ++
          normalize_amount kv.2]
      else acc) []
    if changes.isEmpty && delta == 0 then return none
    else
      let rowPart := if delta == 0 then ""
        else (if delta > 0 then "+" else "") ++ toString delta ++ " ligne" ++
          (if delta.natAbs != 1 then "s" else "")
      let changePart := joinSep "; " (changes.take 3)
      let pieces :=
        (if !rowPart.data.isEmpty then [rowPart] else []) ++
        (if !changePart.data.isEmpty then [changePart] else [])
      let payload := joinSep " ‚Äì " pieces
      return (if payload.data.isEmpty then none
        else some (puaStr ++ "üìä Synth√®se annuelle : " ++ payload))

/-! ### `_format_releve_row` and `_summarize_releve` -/

/-- The inner `_truncate` of `_format_releve_row` (default `max_len=80`). -/
def releveTruncate (text : String) : String :=
  let t := pyStrip text
  if t.data.length ≤ 80 then t else pyTake 77 t ++ "..."

/-- `_format_releve_row(row)`.  The intermediate `head` switches between the
raw looked-up value and built-up strings, so it is carried as a value. -/
def format_releve_row (rkvs : List (String × JVal)) : String :=
  let date := pyOr ((JVal.lookup? rkvs "Date de valeur").getD .null)
    (pyOr ((JVal.lookup? rkvs "Date").getD .null) (.str ""))
  let objet := if ((JVal.lookup? rkvs "Objet").getD .null).truthy then
      releveTruncate (pyStr ((JVal.lookup? rkvs "Objet").getD (.str "")))
    else ""
  let activ := pyOr ((JVal.lookup? rkvs "N¬∞Activit√©").getD .null)
    (pyOr ((JVal.lookup? rkvs "REF. ACTIVITE").getD .null) (.str ""))
  let versement := pyOr ((JVal.lookup? rkvs "Versement").getD .null) (.str "")
  let dispo := pyOr ((JVal.lookup? rkvs "Disponible").getD .null) (.str "")
  let parts :=
    (if versement.truthy then ["versement " ++ pyStr versement] else []) ++
    (if dispo.truthy then ["disp. " ++ pyStr dispo] else [])
  let detail := if parts.isEmpty then none else some (joinSep "; " parts)
  let head1 := if !objet.data.isEmpty then
      (if date.truthy then JVal.str (pyStr date ++ " ‚Äì " ++ objet)
       else JVal.str objet)
    else date
  let head := if activ.truthy then
      (if head1.truthy then JVal.str (pyStr head1 ++ " (" ++ pyStr activ ++ ")")
       else activ)
    else head1
  match detail with
  | some d => "‚Ä¢ " ++ pyStr head ++ " : " ++ d
  | none => if head.truthy then "‚Ä¢ " ++ pyStr head else "‚Ä¢ Ligne ajout√©e"

/-- The row-count line of `_summarize_releve`, emitted when the count
changed (the heading is fetched with default `"Relev√©"`). -/
def releve_count_line (ctv : JVal) (pl cl : Nat) :
    Except String (List String) :=
  if (pl : Int) != (cl : Int) then do
    let hv ← ctv.pyGetD "heading" (.str "Relev√©")
    pure [puaStr ++ "üìà " ++ pyStr hv ++ " : " ++ toString pl ++
      " lignes -> " ++ toString cl ++ " lignes"]
  else pure []

/-- `_summarize_releve(prev_tables, curr_tables)`. -/
def summarize_releve (prevTables currTables : List JVal) :
    Except String (List String) := do
  let pt ← table_by_heading_opt prevTables "Relev√©"
  let ct ← table_by_heading_opt currTables "Relev√©"
  let ctv := ct.getD .null
  if !ctv.truthy then return []
  else do
    let ptv := pt.getD .null
    let prv ← rows_if_obj ptv
    let crv ← rows_if_obj ctv
    let pl ← prv.pyLen
    let cl ← crv.pyLen
    let countLine ← releve_count_line ctv pl cl
    let pretty := (detect_new_rows (listOfRows prv)
        (listOfRows crv)).filterMap fun r =>
      match r with
      | .obj rkvs =>
          if looks_like_header_row r then none
          else some (format_releve_row rkvs)
      | _ => none
    return countLine ++ pretty

/-! ### `_summarize_note_frais` -/

/-- The body of the row loop of `_summarize_note_frais`: non-dict and
header-looking rows produce nothing; a truthy non-string metadata part makes
the `", ".join` raise `TypeError`. -/
def note_frais_row_lines (row : JVal) : Except String (List String) :=
  match row with
  | .obj rkvs =>
      if looks_like_header_row row then .ok []
      else do
        let name := pyOr ((JVal.lookup? rkvs "NOM DU FICHIER").getD .null)
          (pyOr ((JVal.lookup? rkvs "col1").getD .null) (.str "fichier"))
        let mois := (JVal.lookup? rkvs "MOIS").getD .null
        let annee := (JVal.lookup? rkvs "ANNEE").getD .null
        let ref := pyOr ((JVal.lookup? rkvs "REF. ACTIVITE").getD .null)
          ((JVal.lookup? rkvs "N¬∞Activit√©").getD .null)
        let typ := (JVal.lookup? rkvs "TYPE").getD .null
        let metaParts :=
          (if mois.truthy then [mois] else []) ++
          (if annee.truthy then [annee] else []) ++
          (if typ.truthy then [typ] else []) ++
          (if ref.truthy then [JVal.str ("ref " ++ pyStr ref)] else [])
        let meta ← pyJoinVals ", " metaParts
        return [if !meta.data.isEmpty then
            puaStr ++ "üìÇ Note de frais : nouveau fichier " ++ pyStr name ++
              " (" ++ meta ++ ")"
          else puaStr ++ "üìÇ Note de frais : nouveau fichier " ++ pyStr name]
  | _ => .ok []

/-- `_summarize_note_frais(prev_tables, curr_tables)`. -/
def summarize_note_frais (prevTables currTables : List JVal) :
    Except String (List String) := do
  let pt ← table_by_heading_opt prevTables "Note de frais"
  let ct ← table_by_heading_opt currTables "Note de frais"
  let ctv := ct.getD .null
  if !ctv.truthy then return []
  else do
    let ptv := pt.getD .null
    let prv ← rows_if_obj ptv
    let crv ← rows_if_obj ctv
    flatMapME note_frais_row_lines
      (detect_new_rows (listOfRows prv) (listOfRows crv))

/-! ### `build_notification_message` -/

/-- `_strip_simulated_line(lines)`. -/
def strip_simulated_line (lines : List String) : List String :=
  lines.filter fun ln => !pySubstr "__simulated_change" ln

/-- `[line.strip() for line in summary.splitlines() if line.strip()]`. -/
def fallbackLines (summary : String) : List String :=
  ((pySplitlines summary).map pyStrip).filter fun t => !t.data.isEmpty

/-- Appending an optional summarizer line when it is truthy. -/
def optLine : Option String → List String
  | some s => if s.data.isEmpty then [] else [s]
  | none => []

/-- The domain-summarizer lines of `build_notification_message` (cash, then
annual summary, then ledger rows, then expense files). -/
def domain_lines (prev curr : JVal) : Except String (List String) := do
  let ptl ← prev.pyGetD "tiles" (.arr [])
  let ctl ← curr.pyGetD "tiles" (.arr [])
  let pts ← ptl.pyIter
  let cts ← ctl.pyIter
  let cash ← summarize_cash pts cts
  let ptb ← prev.pyGetD "tables" (.arr [])
  let ctb ← curr.pyGetD "tables" (.arr [])
  let ptbs ← ptb.pyIter
  let ctbs ← ctb.pyIter
  let synth ← summarize_synthese ptbs ctbs
  let rel ← summarize_releve ptbs ctbs
  let nf ← summarize_note_frais ptbs ctbs
  return optLine cash ++ optLine synth ++ rel ++ nf

/-- The line list of `build_notification_message` before the simulated-line
strip: domain lines when both snapshots are present (falling back to the
summary's stripped lines when the summarizers produce nothing), otherwise the
summary's stripped lines. -/
def build_notification_lines (summary : String) (prev curr : Option JVal) :
    Except String (List String) := do
  match prev, curr with
  | some p, some c => do
      let ls ← domain_lines p c
      return if ls.isEmpty then fallbackLines summary else ls
  | _, _ => return fallbackLines summary

/-- `build_notification_message` up to but excluding the final `[:1024]`
slice: strip simulated lines, substitute the placeholder when empty, append
the archive-name line, and join with newlines. -/
def build_notification_untruncated (summary : String) (snapName : Option String)
    (prev curr : Option JVal) : Except String String := do
  let l1 ← build_notification_lines summary prev curr
  let l2 := strip_simulated_line l1
  let l3 := if l2.isEmpty then ["Changement d√©tect√© (d√©tails indisponibles)."]
    else l2
  let l4 := match snapName with
    | some n => l3 ++ [puaStr ++ "üìÅ " ++ n]
    | none => l3
  return joinNl l4

/-- `build_notification_message(summary, snap_path, prev, curr)` (the
archive path enters only through its final name component). -/
def build_notification_message (summary : String) (snapName : Option String)
    (prev curr : Option JVal) : Except String String := do
  let m ← build_notification_untruncated summary snapName prev curr
  return pyTake 1024 m

/-! ### Claims about the composed notification -/

set_option maxRecDepth 4000 in
/-- C4 counterexample: a 1000-character line followed by a 100-character
line is truncated by a hard character slice that cuts the second line
mid-way (23 characters of it survive); dropping trailing lines would have
produced the first line alone. -/
theorem C4_counterexample :
    build_notification_message
      (String.mk (List.replicate 1000 'a') ++ "\n" ++
        String.mk (List.replicate 100 'b')) none none none =
      .ok (String.mk (List.replicate 1000 'a') ++ "\n" ++
        String.mk (List.replicate 23 'b')) ∧
    String.mk (List.replicate 1000 'a') ++ "\n" ++
        String.mk (List.replicate 23 'b') ≠
      String.mk (List.replicate 1000 'a') := by
  constructor
  · rfl
  · decide

/-- C4 amended: the final notification is the untruncated composition cut to
its first 1024 characters — a plain character slice (hence at most 1024
characters and a prefix of the untruncated message), not a line-dropping
truncation. -/
theorem C4_truncation (summary : String) (snapName : Option String)
    (prev curr : Option JVal) (m : String)
    (h : build_notification_untruncated summary snapName prev curr = .ok m) :
    build_notification_message summary snapName prev curr =
      .ok (pyTake 1024 m) ∧
    (pyTake 1024 m).data.length ≤ 1024 ∧
    (pyTake 1024 m).data.isPrefixOf m.data = true := by
  refine ⟨?_, ?_, ?_⟩
  · unfold build_notification_message
    rw [h]
    rfl
  · exact List.length_take_le 1024 m.data
  · exact List.isPrefixOf_iff_prefix.mpr (List.take_prefix 1024 m.data)

/-- C4 witness: on the two-line summary `"hi"` with no archive, the final
message is the (here vacuous) 1024-character slice of the untruncated
message. -/
theorem C4_witness :
    build_notification_message "hi" none none none = .ok (pyTake 1024 "hi") ∧
    (pyTake 1024 "hi").data.length ≤ 1024 ∧
    (pyTake 1024 "hi").data.isPrefixOf "hi".data = true :=
  C4_truncation "hi" none none none "hi" rfl

/-- A ledger row with no recognised columns. -/
def c3row : JVal := .obj [("a", .str "x")]

/-- The previous ledger table: no rows. -/
def c3tableP : JVal := .obj [("heading", .str "Relev√©"), ("rows", .arr [])]

/-- The current ledger table: eight new rows. -/
def c3tableC : JVal :=
  .obj [("heading", .str "Relev√©"), ("rows", .arr (List.replicate 8 c3row))]

def c3prev : JVal := .obj [("tables", .arr [c3tableP])]

def c3curr : JVal := .obj [("tables", .arr [c3tableC])]

set_option maxRecDepth 4000 in
/-- C3 counterexample: eight new ledger rows make the ledger summarizer emit
a row-count line plus eight bullet lines, so the final composed notification
has nine content lines and no archive line — more than seven. -/
theorem C3_counterexample :
    (build_notification_message "" none (some c3prev) (some c3curr)).map
      (fun m => (pySplitlines m).length) = .ok 9 := by rfl

/-- C3 amended: the seven-line cap is a property of the diff summary —
`summarize_changes` joins at most seven lines — not of the composed
notification, whose domain-summarizer lines are unbounded; the composition
has at most seven content lines before the archive-name line exactly when
the domain summarizers produce nothing and the summary itself has at most
seven stripped lines. -/
theorem C3_seven_lines (p c : JVal) (summary : String) (snap : Option String)
    (hdom : domain_lines p c = .ok [])
    (hsum : (fallbackLines summary).length ≤ 7) :
    (∃ content : List String, content.length ≤ 7 ∧
       build_notification_untruncated summary snap (some p) (some c) =
         .ok (joinNl (content ++ (match snap with
           | some n => [puaStr ++ "üìÅ " ++ n]
           | none => [])))) ∧
    (∀ q d L, summarize_changes_list q d = .ok L →
       summarize_changes (some q) d = .ok (joinNl (L.take 7)) ∧
       (L.take 7).length ≤ 7) := by
  constructor
  · have hlines : build_notification_lines summary (some p) (some c) =
        .ok (fallbackLines summary) := by
      have hred : build_notification_lines summary (some p) (some c) =
          (do let ls ← domain_lines p c
              pure (if ls.isEmpty = true then fallbackLines summary
                else ls)) := rfl
      rw [hred, hdom]
      rfl
    refine ⟨if (strip_simulated_line (fallbackLines summary)).isEmpty then
        ["Changement d√©tect√© (d√©tails indisponibles)."]
      else strip_simulated_line (fallbackLines summary), ?_, ?_⟩
    · split
      · decide
      · exact le_trans (List.length_filter_le _ _) hsum
    · cases snap with
      | none =>
          rw [List.append_nil]
          unfold build_notification_untruncated
          rw [hlines]
          rfl
      | some n =>
          unfold build_notification_untruncated
          rw [hlines]
          rfl
  · intro q d L h
    constructor
    · have hred : summarize_changes (some q) d =
          (do let l ← summarize_changes_list q d
              pure (joinNl (l.take 7))) := rfl
      rw [hred, h]
      rfl
    · exact List.length_take_le 7 L

/-- On two empty documents the diff summary is the single generic sentence
(no tile, table or user lines, and no first difference). -/
theorem scl_empty :
    summarize_changes_list (.obj []) (.obj []) =
      .ok ["Changements d√©tect√©s."] := by
  show summarize_changes_post (.obj []) (.obj []) []
    (first_diff (.obj []) (.obj []) "") = .ok ["Changements d√©tect√©s."]
  rw [first_diff_self]
  rfl

/-- C3 witness: on two empty documents with a one-line summary and an
archive name, the composed notification has at most seven content lines
before the archive line, and the summary itself is the at-most-seven-line
join. -/
theorem C3_witness :
    (∃ content : List String, content.length ≤ 7 ∧
       build_notification_untruncated "Changements d√©tect√©s."
         (some "x.json.gz") (some (.obj [])) (some (.obj [])) =
         .ok (joinNl (content ++ [puaStr ++ "üìÅ " ++ "x.json.gz"]))) ∧
    (summarize_changes (some (.obj [])) (.obj []) =
       .ok (joinNl ((["Changements d√©tect√©s."] : List String).take 7)) ∧
     ((["Changements d√©tect√©s."] : List String).take 7).length ≤ 7) :=
  ⟨(C3_seven_lines (.obj []) (.obj []) "Changements d√©tect√©s."
      (some "x.json.gz") rfl (by decide)).1,
   (C3_seven_lines (.obj []) (.obj []) "Changements d√©tect√©s."
      (some "x.json.gz") rfl (by decide)).2 (.obj []) (.obj [])
     ["Changements d√©tect√©s."] scl_empty⟩

/-! ### `cleanup_old_snapshots` (snapshot retention) -/

/-- `SNAPSHOT_RETENTION` from the source (the retention cap; the test suite
monkeypatches it, so the model below is parametrised by it). -/
def SNAPSHOT_RETENTION : Nat := 30

theorem insSorted_perm (le : α → α → Bool) (x : α) (l : List α) :
    (insSorted le x l).Perm (x :: l) := by
  induction l with
  | nil => exact List.Perm.refl _
  | cons y ys ih =>
      rw [insSorted]
      split
      · exact (ih.cons y).trans (List.Perm.swap x y ys)
      · exact List.Perm.refl _

theorem pySorted_perm (le : α → α → Bool) (l : List α) :
    (pySorted le l).Perm l := by
  induction l with
  | nil => exact List.Perm.refl _
  | cons x xs ih =>
      exact (insSorted_perm le x (pySorted le xs)).trans (ih.cons x)

theorem lexlt_irrefl : ∀ l : List Char, ¬ List.Lex (· < ·) l l
  | [], h => nomatch h
  | _ :: _, h => by
      cases h with
      | cons h => exact lexlt_irrefl _ h
      | rel h => exact absurd h (lt_irrefl _)

theorem lexlt_cons_iff {c : Char} {xs ys : List Char} :
    List.Lex (· < ·) (c :: xs) (c :: ys) ↔ List.Lex (· < ·) xs ys := by
  constructor
  · intro h
    cases h with
    | cons h => exact h
    | rel h => exact absurd h (lt_irrefl _)
  · exact List.Lex.cons

theorem lexLeCh_eq_not_lex : ∀ a b : List Char,
    lexLeCh a b = !decide (List.Lex (· < ·) b a)
  | [], [] => by
      have : ¬ List.Lex (· < ·) ([] : List Char) [] := fun h => nomatch h
      simp [lexLeCh, this]
  | [], c :: cs => by
      have : ¬ List.Lex (· < ·) (c :: cs) [] := fun h => nomatch h
      simp [lexLeCh, this]
  | c :: cs, [] => by
      have : List.Lex (· < ·) ([] : List Char) (c :: cs) := List.Lex.nil
      simp [lexLeCh, this]
  | a :: as, b :: bs => by
      rw [lexLeCh]
      by_cases h1 : a.toNat < b.toNat
      · have hab : a < b := h1
        have hn : ¬ List.Lex (· < ·) (b :: bs) (a :: as) := by
          intro h
          cases h with
          | cons h => exact absurd hab (lt_irrefl _)
          | rel h2 => exact absurd (h2.trans hab) (lt_irrefl _)
        rw [if_pos h1]
        simp [hn]
      · by_cases h2 : b.toNat < a.toNat
        · have hba : b < a := h2
          have hl : List.Lex (· < ·) (b :: bs) (a :: as) := List.Lex.rel hba
          rw [if_neg h1, if_pos h2]
          simp [hl]
        · have hab : a = b := le_antisymm (not_lt.mp h2) (not_lt.mp h1)
          subst hab
          rw [if_neg h1, if_neg h2, lexLeCh_eq_not_lex as bs]
          simp [lexlt_cons_iff]

theorem strLt_iff_lex (u v : String) :
    u < v ↔ List.Lex (· < ·) u.data v.data := by
  rw [String.lt_iff_toList_lt]
  exact Iff.rfl

theorem strLe_eq_not_lt (a b : String) :
    strLe a b = !decide (b < a) := by
  rw [strLe, lexLeCh_eq_not_lex]
  have := strLt_iff_lex b a
  by_cases h : b < a
  · simp [h, this.mp h]
  · simp [h, this.not.mp h]

theorem lexlt_append_left (p : List Char) {x y : List Char} :
    List.Lex (· < ·) (p ++ x) (p ++ y) ↔ List.Lex (· < ·) x y := by
  induction p with
  | nil => exact Iff.rfl
  | cons c cs ih =>
      rw [List.cons_append, List.cons_append, lexlt_cons_iff]
      exact ih

theorem lexlt_append_right {s : List Char} :
    ∀ {a b : List Char}, a.length = b.length →
      (List.Lex (· < ·) (a ++ s) (b ++ s) ↔ List.Lex (· < ·) a b) := by
  intro a
  induction a with
  | nil =>
      intro b h
      have hb : b = [] := List.length_eq_zero.mp h.symm
      subst hb
      exact iff_of_false (lexlt_irrefl s) (lexlt_irrefl [])
  | cons c as ih =>
      intro b h
      match b with
      | [] => exact absurd h (by simp)
      | d :: bs =>
          have hlen : as.length = bs.length := by simpa using h
          rcases lt_trichotomy c d with hcd | hcd | hcd
          · exact iff_of_true (List.Lex.rel hcd) (List.Lex.rel hcd)
          · subst hcd
            rw [List.cons_append, List.cons_append, lexlt_cons_iff,
              lexlt_cons_iff]
            exact ih hlen
          · refine iff_of_false ?_ ?_
            · intro hlex
              rw [List.cons_append, List.cons_append] at hlex
              cases hlex with
              | cons h2 => exact absurd hcd (lt_irrefl _)
              | rel h2 => exact absurd (h2.trans hcd) (lt_irrefl _)
            · intro hlex
              cases hlex with
              | cons h2 => exact absurd hcd (lt_irrefl _)
              | rel h2 => exact absurd (h2.trans hcd) (lt_irrefl _)

/-- The snapshot file name `save_snapshot` builds for a timestamp. -/
def mkSnapName (ts : String) : String :=
  "portad-dashboard-" ++ ts ++ ".json.gz"

theorem strLe_mkSnapName {t1 t2 : String}
    (h : t1.data.length = t2.data.length) :
    strLe (mkSnapName t1) (mkSnapName t2) = strLe t1 t2 := by
  rw [strLe_eq_not_lt, strLe_eq_not_lt]
  have hiff : (mkSnapName t2 < mkSnapName t1) ↔ (t2 < t1) := by
    rw [strLt_iff_lex, strLt_iff_lex]
    rw [mkSnapName, mkSnapName, string_append_data, string_append_data,
      string_append_data, string_append_data, List.append_assoc,
      List.append_assoc]
    rw [lexlt_append_left]
    exact lexlt_append_right h.symm
  by_cases hc : mkSnapName t2 < mkSnapName t1
  · simp [hc, hiff.mp hc]
  · simp [hc, hiff.not.mp hc]

/-- Whether a file name matches the glob `portad-dashboard-*.json.gz`
(literal prefix, literal suffix, `*` matching any — possibly empty —
character sequence in between). -/
def snapMatches (name : String) : Bool :=
  "portad-dashboard-".data.isPrefixOf name.data &&
  decide (25 ≤ name.data.length) &&
  name.data.drop (name.data.length - 8) == ".json.gz".data

/-- `cleanup_old_snapshots()`, modelled over the duplicate-free list of file
names in the snapshot directory: the glob result is sorted ascending and
reversed, which on distinct names is exactly `sorted(..., reverse=True)`;
nothing is removed at or below the retention cap, otherwise every matching
name past the first `retention` in descending order is deleted (deletions
modelled as succeeding; the source ignores deletion failures). -/
def cleanup_old_snapshots (files : List String) (retention : Nat) :
    List String :=
  let gz := (pySorted strLe (files.filter snapMatches)).reverse
  if gz.length ≤ retention then files
  else files.filter fun f => !(gz.drop retention).contains f

theorem cleanup_members (files : List String) (N : Nat) (hnd : files.Nodup) :
    ∀ f, f ∈ cleanup_old_snapshots files N ↔
      f ∈ files ∧ (snapMatches f = false ∨
        f ∈ (pySorted strLe (files.filter snapMatches)).reverse.take N) := by
  intro f
  set M := files.filter snapMatches with hM
  set gz := (pySorted strLe M).reverse with hgz
  have hMnd : M.Nodup := hnd.filter _
  have hgznd : gz.Nodup := by
    rw [hgz]
    exact (List.nodup_reverse).mpr ((pySorted_perm strLe M).symm.nodup hMnd)
  have hmemgz : ∀ g, g ∈ gz ↔ g ∈ M := by
    intro g
    rw [hgz, List.mem_reverse]
    exact mem_pySorted
  have hsplitnd : ((gz.take N) ++ (gz.drop N)).Nodup := by
    rw [List.take_append_drop]
    exact hgznd
  have hdisj : ∀ g, g ∈ gz.take N → g ∈ gz.drop N → False := by
    intro g h1 h2
    exact (List.nodup_append.mp hsplitnd).2.2 h1 h2
  have htd : ∀ g, g ∈ gz → (g ∈ gz.take N ↔ ¬ g ∈ gz.drop N) := by
    intro g hg
    constructor
    · intro h1 h2
      exact hdisj g h1 h2
    · intro h2
      have : g ∈ gz.take N ++ gz.drop N := by
        rw [List.take_append_drop]
        exact hg
      rcases List.mem_append.mp this with h | h
      · exact h
      · exact absurd h h2
  rw [cleanup_old_snapshots]
  by_cases hc : gz.length ≤ N
  · rw [if_pos hc]
    constructor
    · intro hf
      refine ⟨hf, ?_⟩
      by_cases hm : snapMatches f
      · right
        rw [List.take_of_length_le hc, hmemgz, hM]
        exact List.mem_filter.mpr ⟨hf, hm⟩
      · left
        exact Bool.eq_false_iff.mpr hm
    · exact fun h => h.1
  · rw [if_neg hc]
    rw [List.mem_filter]
    constructor
    · rintro ⟨hf, hnc⟩
      refine ⟨hf, ?_⟩
      have hnd2 : ¬ f ∈ gz.drop N := by
        intro hmem
        rw [Bool.not_eq_true', ← Bool.not_eq_true] at hnc
        exact hnc (List.elem_iff.mpr hmem)
      by_cases hm : snapMatches f
      · right
        have hfgz : f ∈ gz := (hmemgz f).mpr (List.mem_filter.mpr ⟨hf, hm⟩)
        exact (htd f hfgz).mpr hnd2
      · left
        exact Bool.eq_false_iff.mpr hm
    · rintro ⟨hf, hcase⟩
      refine ⟨hf, ?_⟩
      have hnd2 : ¬ f ∈ gz.drop N := by
        rcases hcase with hm | ht
        · intro hmem
          have hfgz : f ∈ gz := List.mem_of_mem_drop hmem
          have : snapMatches f = true := by
            have := (hmemgz f).mp hfgz
            rw [hM] at this
            exact List.of_mem_filter this
          rw [hm] at this
          exact Bool.false_ne_true this
        · intro hmem
          have hfgz : f ∈ gz := List.mem_of_mem_drop hmem
          exact hdisj f ht hmem
      rw [Bool.not_eq_true', ← Bool.not_eq_true]
      intro hel
      exact hnd2 (List.elem_iff.mp hel)

theorem cleanup_noop (files : List String) (N : Nat)
    (h : (files.filter snapMatches).length ≤ N) :
    cleanup_old_snapshots files N = files := by
  rw [cleanup_old_snapshots]
  have hlen : (pySorted strLe (files.filter snapMatches)).reverse.length ≤ N := by
    rw [List.length_reverse, (pySorted_perm strLe _).length_eq]
    exact h
  rw [if_pos hlen]

theorem cleanup_perm (files : List String) (N : Nat) (hnd : files.Nodup) :
    ((cleanup_old_snapshots files N).filter snapMatches).Perm
      ((pySorted strLe (files.filter snapMatches)).reverse.take N) := by
  set M := files.filter snapMatches with hM
  set gz := (pySorted strLe M).reverse with hgz
  have hMnd : M.Nodup := hnd.filter _
  have hgznd : gz.Nodup := by
    rw [hgz]
    exact (List.nodup_reverse).mpr ((pySorted_perm strLe M).symm.nodup hMnd)
  have hclnd : (cleanup_old_snapshots files N).Nodup := by
    rw [cleanup_old_snapshots]
    split
    · exact hnd
    · exact hnd.filter _
  apply (List.perm_ext_iff_of_nodup (hclnd.filter _) (hgznd.sublist (List.take_sublist N gz))).mpr
  intro a
  rw [List.mem_filter]
  constructor
  · rintro ⟨hmem, hm⟩
    rcases (cleanup_members files N hnd a).mp hmem with ⟨ha, hcase⟩
    rcases hcase with h | h
    · rw [hm] at h
      exact absurd h (by decide)
    · exact h
  · intro ht
    have hagz : a ∈ gz := List.mem_of_mem_take ht
    have haM : a ∈ M := by
      rw [hgz, List.mem_reverse] at hagz
      exact mem_pySorted.mp hagz
    have hm : snapMatches a = true := by
      rw [hM] at haM
      exact List.of_mem_filter haM
    have haf : a ∈ files := by
      rw [hM] at haM
      exact List.mem_of_mem_filter haM
    exact ⟨(cleanup_members files N hnd a).mpr ⟨haf, Or.inr ht⟩, hm⟩

/-- C9: over a duplicate-free directory listing, pruning with retention cap
`N` (i) keeps a file iff it does not match the archive glob or ranks among
the first `N` matching names in descending order, (ii) removes nothing when
at most `N` archives match, (iii) leaves exactly the first `N` matching
names in descending name order, and (iv) descending name order is descending
timestamp order, since on equal-length timestamps the name comparison equals
the timestamp comparison. -/
theorem C9_retention (files : List String) (N : Nat) (hnd : files.Nodup) :
    (∀ f, f ∈ cleanup_old_snapshots files N ↔
       f ∈ files ∧ (snapMatches f = false ∨
         f ∈ (pySorted strLe (files.filter snapMatches)).reverse.take N)) ∧
    ((files.filter snapMatches).length ≤ N →
       cleanup_old_snapshots files N = files) ∧
    ((cleanup_old_snapshots files N).filter snapMatches).Perm
      ((pySorted strLe (files.filter snapMatches)).reverse.take N) ∧
    (∀ t1 t2 : String, t1.data.length = t2.data.length →
       strLe (mkSnapName t1) (mkSnapName t2) = strLe t1 t2) :=
  ⟨cleanup_members files N hnd, cleanup_noop files N,
   cleanup_perm files N hnd, fun _ _ h => strLe_mkSnapName h⟩

/-- A concrete snapshot directory: five archives and one unrelated file. -/
def c9files : List String :=
  ["portad-dashboard-20240102-000000.json.gz",
   "portad-dashboard-20240105-000000.json.gz",
   "notes.txt",
   "portad-dashboard-20240101-000000.json.gz",
   "portad-dashboard-20240104-000000.json.gz",
   "portad-dashboard-20240103-000000.json.gz"]

/-- C9 witness: with five archives and a cap of 3, exactly the three most
recent archives remain (plus the unrelated file), and the oldest archive's
membership is settled by the retention theorem. -/
theorem C9_witness :
    (("portad-dashboard-20240101-000000.json.gz" ∈
        cleanup_old_snapshots c9files 3) ↔
      ("portad-dashboard-20240101-000000.json.gz" ∈ c9files ∧
        (snapMatches "portad-dashboard-20240101-000000.json.gz" = false ∨
          "portad-dashboard-20240101-000000.json.gz" ∈
            (pySorted strLe (c9files.filter snapMatches)).reverse.take 3))) ∧
    cleanup_old_snapshots c9files 3 =
      ["portad-dashboard-20240105-000000.json.gz", "notes.txt",
       "portad-dashboard-20240104-000000.json.gz",
       "portad-dashboard-20240103-000000.json.gz"] :=
  ⟨(C9_retention c9files 3 (by decide)).1 _, by decide⟩

/-! ### Totality of the summarizers on well-formed input -/

theorem ok_bind {α β : Type} (a : α) (f : α → Except String β) :
    ((Except.ok a : Except String α) >>= f) = f a := rfl

theorem pyGetD_ok {v : JVal} (h : v.isObj = true) (key : String)
    (dflt : JVal) : ∃ r, v.pyGetD key dflt = .ok r := by
  cases v <;> first
    | exact ⟨_, rfl⟩
    | simp [JVal.isObj] at h

theorem pyGet_ok {v : JVal} (h : v.isObj = true) (key : String) :
    ∃ r, v.pyGet key = .ok r := pyGetD_ok h key .null

/-- The sized values: those Python's `len()` accepts. -/
def sized : JVal → Bool
  | .str _ => true
  | .arr _ => true
  | .obj _ => true
  | .tup _ => true
  | _ => false

theorem pyLen_ok {v : JVal} (h : sized v = true) : ∃ n, v.pyLen = .ok n := by
  cases v <;> first
    | exact ⟨_, rfl⟩
    | simp [sized] at h

theorem str_hashable {v : JVal} (h : v.isStr = true) : v.hashable = true := by
  cases v <;> first
    | rfl
    | simp [JVal.isStr] at h

theorem lookup?_mem {kvs : List (String × JVal)} {k : String} {v : JVal}
    (h : JVal.lookup? kvs k = some v) : (k, v) ∈ kvs := by
  induction kvs with
  | nil => exact Option.noConfusion h
  | cons p rest ih =>
      obtain ⟨k0, v0⟩ := p
      rw [JVal.lookup?] at h
      split at h
      · rename_i heq
        rw [Option.some.injEq] at h
        rw [heq, h]
        exact List.mem_cons_self _ _
      · exact List.mem_cons_of_mem _ (ih h)

theorem mapME_ok {α β : Type} {f : α → Except String β} :
    ∀ {xs : List α}, (∀ x ∈ xs, ∃ y, f x = .ok y) →
      ∃ ys, mapME f xs = .ok ys
  | [], _ => ⟨[], rfl⟩
  | x :: xs, h => by
      obtain ⟨y, hy⟩ := h x (List.mem_cons_self x xs)
      obtain ⟨ys, hys⟩ :=
        mapME_ok (fun a ha => h a (List.mem_cons_of_mem x ha))
      exact ⟨y :: ys, by rw [mapME, hy, ok_bind, hys, ok_bind]; rfl⟩

theorem flatMapME_ok {α : Type} {f : α → Except String (List String)} :
    ∀ {xs : List α},
      (∀ x ∈ xs, ∃ ls, f x = .ok ls ∧ ∀ s ∈ ls, s ≠ "") →
      ∃ ls, flatMapME f xs = .ok ls ∧ ∀ s ∈ ls, s ≠ ""
  | [], _ => ⟨[], rfl, by simp⟩
  | x :: xs, h => by
      obtain ⟨ls, hls, hne⟩ := h x (List.mem_cons_self x xs)
      obtain ⟨rest, hrest, hner⟩ :=
        flatMapME_ok (fun a ha => h a (List.mem_cons_of_mem x ha))
      refine ⟨ls ++ rest,
        by rw [flatMapME, hls, ok_bind, hrest, ok_bind]; rfl, ?_⟩
      intro s hs
      rcases List.mem_append.mp hs with h1 | h1
      · exact hne s h1
      · exact hner s h1

theorem foldlME_ok {σ α : Type} {f : σ → α → Except String σ} :
    ∀ {xs : List α} {s : σ},
      (∀ s' x, x ∈ xs → ∃ out, f s' x = .ok out) →
      ∃ out, foldlME f s xs = .ok out
  | [], s, _ => ⟨s, rfl⟩
  | x :: xs, s, h => by
      obtain ⟨s', hs'⟩ := h s x (List.mem_cons_self x xs)
      obtain ⟨out, hout⟩ :=
        foldlME_ok (fun a b hb => h a b (List.mem_cons_of_mem x hb))
      exact ⟨out, by rw [foldlME, hs', ok_bind]; exact hout⟩

theorem effLabel_ok {e : JVal} (h : e.isObj = true) (lk fb : String)
    (idx : Nat) : ∃ l, effLabel e lk fb idx = .ok l := by
  obtain ⟨r, hr⟩ := pyGet_ok h lk
  exact ⟨_, by rw [effLabel, hr, ok_bind]; rfl⟩

theorem mem_dictInsert_values {m : List (String × JVal)} {k : String}
    {v : JVal} : ∀ kv ∈ dictInsert m k v, kv.2 = v ∨ kv ∈ m := by
  intro kv hkv
  rw [dictInsert] at hkv
  split at hkv
  · rcases List.mem_map.mp hkv with ⟨p, hp, he⟩
    by_cases hc : p.1 = k
    · left
      rw [if_pos hc] at he
      rw [← he]
    · right
      rw [if_neg hc] at he
      rwa [← he]
  · rcases List.mem_append.mp hkv with h | h
    · right
      exact h
    · left
      rw [List.mem_singleton.mp h]

theorem build_label_map_go_values (P : JVal → Prop) (lk fb : String) :
    ∀ {entries : List JVal} {idx : Nat} {seen : List (String × Nat)}
      {mapping : List (String × JVal)},
      (∀ e ∈ entries, e.isObj = true ∧ P e) →
      (∀ kv ∈ mapping, P kv.2) →
      ∃ m, build_label_map_go lk fb entries idx seen mapping = .ok m ∧
        ∀ kv ∈ m, P kv.2
  | [], _, _, mapping, _, hm => ⟨mapping, rfl, hm⟩
  | e :: rest, idx, seen, mapping, he, hm => by
      obtain ⟨hobj, hPe⟩ := he e (List.mem_cons_self e rest)
      obtain ⟨l, hl⟩ := effLabel_ok hobj lk fb idx
      obtain ⟨m, hgo, hPm⟩ := @build_label_map_go_values P lk fb rest (idx + 1)
        (natInsert seen l ((natLookup seen l).getD 0 + 1))
        (dictInsert mapping
          (if (natLookup seen l).getD 0 = 0 then l
            else l ++ " #" ++ toString ((natLookup seen l).getD 0 + 1)) e)
        (fun a ha => he a (List.mem_cons_of_mem e ha))
        (fun kv hkv => by
          rcases mem_dictInsert_values kv hkv with h1 | h1
          · rw [h1]; exact hPe
          · exact hm kv h1)
      refine ⟨m, ?_, hPm⟩
      rw [build_label_map_go, hl, ok_bind]
      exact hgo

theorem build_label_map_values (P : JVal → Prop) {entries : List JVal}
    (lk fb : String) (h : ∀ e ∈ entries, e.isObj = true ∧ P e) :
    ∃ m, build_label_map entries lk fb = .ok m ∧ ∀ kv ∈ m, P kv.2 :=
  build_label_map_go_values P lk fb h
    (fun kv hkv => absurd hkv (List.not_mem_nil kv))

theorem mem_if_singleton {P : Prop} [Decidable P] {l s : String}
    (hs : s ∈ (if P then [l] else [])) : s = l := by
  split at hs
  · exact List.mem_singleton.mp hs
  · exact absurd hs (List.not_mem_nil s)

theorem sne2 {a b : String} (h : a ≠ "") : a ++ b ≠ "" :=
  append_ne_empty_left h

theorem sne3 {a b c : String} (h : a ≠ "") : a ++ b ++ c ≠ "" :=
  append_ne_empty_left (sne2 h)

theorem sne4 {a b c d : String} (h : a ≠ "") : a ++ b ++ c ++ d ≠ "" :=
  append_ne_empty_left (sne3 h)

theorem sne5 {a b c d e : String} (h : a ≠ "") :
    a ++ b ++ c ++ d ++ e ≠ "" :=
  append_ne_empty_left (sne4 h)

theorem sne6 {a b c d e f : String} (h : a ≠ "") :
    a ++ b ++ c ++ d ++ e ++ f ≠ "" :=
  append_ne_empty_left (sne5 h)

theorem sne7 {a b c d e f g : String} (h : a ≠ "") :
    a ++ b ++ c ++ d ++ e ++ f ++ g ≠ "" :=
  append_ne_empty_left (sne6 h)

theorem sne8 {a b c d e f g i : String} (h : a ≠ "") :
    a ++ b ++ c ++ d ++ e ++ f ++ g ++ i ≠ "" :=
  append_ne_empty_left (sne7 h)

theorem tile_key_lines_ok {pm cm : List (String × JVal)} (key : String)
    (hp : ∀ kv ∈ pm, kv.2.isObj = true)
    (hc : ∀ kv ∈ cm, kv.2.isObj = true) :
    ∃ ls, tile_key_lines pm cm key = .ok ls ∧ ∀ s ∈ ls, s ≠ "" := by
  rw [tile_key_lines.eq_def]
  rcases hlp : JVal.lookup? pm key with _ | p <;>
    rcases hlc : JVal.lookup? cm key with _ | c <;>
    dsimp only
  · exact ⟨[], rfl, fun s hs => absurd hs (List.not_mem_nil s)⟩
  · have hcobj := hc (key, c) (lookup?_mem hlc)
    by_cases hct : c.truthy = true
    · rw [if_pos hct]
      obtain ⟨cv, hcv⟩ := pyGet_ok hcobj "value"
      rw [hcv, ok_bind]
      refine ⟨_, rfl, ?_⟩
      intro s hs
      have h9 := List.mem_singleton.mp hs
      subst h9
      exact sne5 (by decide)
    · rw [if_neg hct]
      exact ⟨[], rfl, fun s hs => absurd hs (List.not_mem_nil s)⟩
  · have hpobj := hp (key, p) (lookup?_mem hlp)
    by_cases hpt : p.truthy = true
    · rw [if_pos hpt]
      obtain ⟨pv, hpv⟩ := pyGet_ok hpobj "value"
      rw [hpv, ok_bind]
      refine ⟨_, rfl, ?_⟩
      intro s hs
      have h9 := List.mem_singleton.mp hs
      subst h9
      exact sne5 (by decide)
    · rw [if_neg hpt]
      exact ⟨[], rfl, fun s hs => absurd hs (List.not_mem_nil s)⟩
  · have hpobj := hp (key, p) (lookup?_mem hlp)
    have hcobj := hc (key, c) (lookup?_mem hlc)
    by_cases hpc : (p.truthy && c.truthy) = true
    · rw [if_pos hpc]
      obtain ⟨pv, hpv⟩ := pyGet_ok hpobj "value"
      obtain ⟨cv, hcv⟩ := pyGet_ok hcobj "value"
      obtain ⟨pp, hpp⟩ := pyGet_ok hpobj "percent"
      obtain ⟨cp, hcp⟩ := pyGet_ok hcobj "percent"
      rw [hpv, ok_bind, hcv, ok_bind, hpp, ok_bind, hcp, ok_bind]
      refine ⟨_, rfl, ?_⟩
      intro s hs
      rcases List.mem_append.mp hs with h9 | h9 <;>
        rw [mem_if_singleton h9] <;>
        exact sne7 (by decide)
    · rw [if_neg hpc]
      by_cases hct : c.truthy = true
      · rw [if_pos hct]
        obtain ⟨cv, hcv⟩ := pyGet_ok hcobj "value"
        rw [hcv, ok_bind]
        refine ⟨_, rfl, ?_⟩
        intro s hs
        have h9 := List.mem_singleton.mp hs
        subst h9
        exact sne5 (by decide)
      · rw [if_neg hct]
        by_cases hpt : p.truthy = true
        · rw [if_pos hpt]
          obtain ⟨pv, hpv⟩ := pyGet_ok hpobj "value"
          rw [hpv, ok_bind]
          refine ⟨_, rfl, ?_⟩
          intro s hs
          have h9 := List.mem_singleton.mp hs
          subst h9
          exact sne5 (by decide)
        · rw [if_neg hpt]
          exact ⟨[], rfl, fun s hs => absurd hs (List.not_mem_nil s)⟩

theorem summarize_tile_changes_ok {prevTiles currTiles : List JVal}
    (h1 : ∀ t ∈ prevTiles, t.isObj = true)
    (h2 : ∀ t ∈ currTiles, t.isObj = true) :
    ∃ ls, summarize_tile_changes prevTiles currTiles = .ok ls ∧
      ∀ s ∈ ls, s ≠ "" := by
  obtain ⟨pm, hpm, hpv⟩ := build_label_map_values (fun v => v.isObj = true)
    "label" "Tile" (fun e he => ⟨h1 e he, h1 e he⟩)
  obtain ⟨cm, hcm, hcv⟩ := build_label_map_values (fun v => v.isObj = true)
    "label" "Tile" (fun e he => ⟨h2 e he, h2 e he⟩)
  obtain ⟨ls, hls, hne⟩ := @flatMapME_ok String (tile_key_lines pm cm)
    (unionKeys cm pm) (fun key _ => tile_key_lines_ok key hpv hcv)
  refine ⟨ls, ?_, hne⟩
  rw [summarize_tile_changes, hpm, ok_bind, hcm, ok_bind]
  exact hls

/-- Well-formed table: a dict whose `rows` value, when present, is sized,
with dict rows carrying only string values when `rows` is a list, and whose
`headers` value, when a list, contains only strings.  This is the shape the
scraper emits, and it is what keeps `len()`, dict-key hashing and
`", ".join` from raising inside the table summarizers. -/
def WFTable (t : JVal) : Bool :=
  match t with
  | .obj kvs =>
      (match JVal.lookup? kvs "rows" with
        | some r => sized r &&
            (match r with
              | .arr rs => rs.all fun row =>
                  match row with
                  | .obj rkvs => rkvs.all fun kv => kv.2.isStr
                  | _ => true
              | _ => true)
        | none => true) &&
      (match JVal.lookup? kvs "headers" with
        | some (.arr hs) => hs.all fun h => h.isStr
        | _ => true)
  | _ => false

theorem WFTable_isObj {t : JVal} (h : WFTable t = true) : t.isObj = true := by
  cases t <;> first
    | rfl
    | simp [WFTable] at h

theorem WFTable_rows {kvs : List (String × JVal)}
    (h : WFTable (.obj kvs) = true) {r : JVal}
    (hr : JVal.lookup? kvs "rows" = some r) :
    sized r = true ∧
      (∀ rs, r = .arr rs → ∀ row ∈ rs, ∀ rkvs, row = .obj rkvs →
        ∀ kv ∈ rkvs, kv.2.isStr = true) := by
  rw [WFTable, hr, Bool.and_eq_true, Bool.and_eq_true] at h
  obtain ⟨⟨hsz, hinner⟩, _⟩ := h
  refine ⟨hsz, ?_⟩
  intro rs hrs row hrow rkvs hrkvs kv hkv
  subst hrs
  have hall : (rs.all fun row =>
      match row with
      | .obj rkvs => rkvs.all fun kv => kv.2.isStr
      | _ => true) = true := hinner
  have hrowall := List.all_eq_true.mp hall row hrow
  subst hrkvs
  have hthis : (rkvs.all fun kv => kv.2.isStr) = true := hrowall
  exact List.all_eq_true.mp hthis kv hkv

theorem WFTable_headers {kvs : List (String × JVal)}
    (h : WFTable (.obj kvs) = true) {hs : List JVal}
    (hh : JVal.lookup? kvs "headers" = some (.arr hs)) :
    ∀ x ∈ hs, x.isStr = true := by
  rw [WFTable, hh, Bool.and_eq_true] at h
  exact List.all_eq_true.mp h.2

theorem rowsLen_ok {t : JVal} (h : WFTable t = true) :
    ∃ n, rowsLen t = .ok n := by
  cases t with
  | obj kvs =>
      rw [rowsLen]
      have hget : (JVal.obj kvs).pyGetD "rows" (.arr []) =
          .ok ((JVal.lookup? kvs "rows").getD (.arr [])) := rfl
      rw [hget, ok_bind]
      rcases hr : JVal.lookup? kvs "rows" with _ | r
      · exact ⟨0, rfl⟩
      · obtain ⟨n, hn⟩ := pyLen_ok (WFTable_rows h hr).1
        exact ⟨n, hn⟩
  | null => simp [WFTable] at h
  | bool b => simp [WFTable] at h
  | num n => simp [WFTable] at h
  | str s => simp [WFTable] at h
  | arr xs => simp [WFTable] at h
  | tup xs => simp [WFTable] at h

theorem rowsListOf_ok {t : JVal} (h : t.isObj = true) :
    ∃ rs, rowsListOf t = .ok rs := by
  obtain ⟨r, hr⟩ := pyGetD_ok h "rows" (.arr [])
  exact ⟨_, by rw [rowsListOf, hr, ok_bind]; rfl⟩

theorem table_key_lines_ok {pm cm : List (String × JVal)} (key : String)
    (hp : ∀ kv ∈ pm, WFTable kv.2 = true)
    (hc : ∀ kv ∈ cm, WFTable kv.2 = true) :
    ∃ ls, table_key_lines pm cm key = .ok ls ∧ ∀ s ∈ ls, s ≠ "" := by
  have hnil : ∀ s ∈ ([] : List String), s ≠ "" :=
    fun s hs => absurd hs (List.not_mem_nil s)
  rw [table_key_lines.eq_def]
  rcases hlp : JVal.lookup? pm key with _ | p <;>
    rcases hlc : JVal.lookup? cm key with _ | c <;>
    dsimp only
  · exact ⟨[], rfl, hnil⟩
  · have hcwf := hc (key, c) (lookup?_mem hlc)
    by_cases hct : c.truthy = true
    · rw [if_pos hct]
      obtain ⟨cr, hcr⟩ := rowsLen_ok hcwf
      rw [hcr, ok_bind]
      refine ⟨_, rfl, ?_⟩
      intro s hs
      have h9 := List.mem_singleton.mp hs
      subst h9
      exact sne6 (by decide)
    · rw [if_neg hct]
      exact ⟨[], rfl, hnil⟩
  · have hpwf := hp (key, p) (lookup?_mem hlp)
    by_cases hpt : p.truthy = true
    · rw [if_pos hpt]
      obtain ⟨pr, hpr⟩ := rowsLen_ok hpwf
      rw [hpr, ok_bind]
      refine ⟨_, rfl, ?_⟩
      intro s hs
      have h9 := List.mem_singleton.mp hs
      subst h9
      exact sne6 (by decide)
    · rw [if_neg hpt]
      exact ⟨[], rfl, hnil⟩
  · have hpwf := hp (key, p) (lookup?_mem hlp)
    have hcwf := hc (key, c) (lookup?_mem hlc)
    by_cases hpc : (p.truthy && c.truthy) = true
    · rw [if_pos hpc]
      obtain ⟨pr, hpr⟩ := rowsLen_ok hpwf
      obtain ⟨cr, hcr⟩ := rowsLen_ok hcwf
      obtain ⟨chv, hchv⟩ := pyGet_ok (WFTable_isObj hcwf) "heading"
      obtain ⟨phv, hphv⟩ := pyGet_ok (WFTable_isObj hpwf) "heading"
      rw [hpr, ok_bind, hcr, ok_bind, hchv, ok_bind, hphv, ok_bind]
      have hcount : ∀ s ∈ (if pr ≠ cr then
          [puaStr ++ "üìÑ " ++ key ++ " : " ++ toString pr ++ " lignes -> " ++
            toString cr ++ " lignes"] else []), s ≠ "" := by
        intro s hs
        have h9 := mem_if_singleton hs
        subst h9
        exact sne8 (by decide)
      by_cases hrel : (decide (pr < cr) &&
          pySubstr "relev√©" (pyLower (pyStr (pyOr chv (pyOr phv (.str "")))))) =
          true
      · rw [if_pos hrel]
        obtain ⟨prl, hprl⟩ := rowsListOf_ok (WFTable_isObj hpwf)
        obtain ⟨crl, hcrl⟩ := rowsListOf_ok (WFTable_isObj hcwf)
        rw [hprl, ok_bind, hcrl, ok_bind]
        refine ⟨_, rfl, ?_⟩
        intro s hs
        rcases List.mem_append.mp hs with h9 | h9
        · exact hcount s h9
        · rcases List.mem_filterMap.mp h9 with ⟨r, _, heq⟩
          split at heq
          · exact Option.noConfusion heq
          · have h8 := Option.some.inj heq
            subst h8
            exact sne4 (by decide)
      · rw [if_neg hrel]
        exact ⟨_, rfl, hcount⟩
    · rw [if_neg hpc]
      by_cases hct : c.truthy = true
      · rw [if_pos hct]
        obtain ⟨cr, hcr⟩ := rowsLen_ok hcwf
        rw [hcr, ok_bind]
        refine ⟨_, rfl, ?_⟩
        intro s hs
        have h9 := List.mem_singleton.mp hs
        subst h9
        exact sne6 (by decide)
      · rw [if_neg hct]
        by_cases hpt : p.truthy = true
        · rw [if_pos hpt]
          obtain ⟨pr, hpr⟩ := rowsLen_ok hpwf
          rw [hpr, ok_bind]
          refine ⟨_, rfl, ?_⟩
          intro s hs
          have h9 := List.mem_singleton.mp hs
          subst h9
          exact sne6 (by decide)
        · rw [if_neg hpt]
          exact ⟨[], rfl, hnil⟩

theorem summarize_table_changes_ok {prevTables currTables : List JVal}
    (h1 : ∀ t ∈ prevTables, WFTable t = true)
    (h2 : ∀ t ∈ currTables, WFTable t = true) :
    ∃ ls, summarize_table_changes prevTables currTables = .ok ls ∧
      ∀ s ∈ ls, s ≠ "" := by
  obtain ⟨ph, hph⟩ := @mapME_ok JVal JVal (fun t => t.pyGet "heading")
    prevTables (fun t ht => pyGet_ok (WFTable_isObj (h1 t ht)) "heading")
  obtain ⟨ch, hch⟩ := @mapME_ok JVal JVal (fun t => t.pyGet "heading")
    currTables (fun t ht => pyGet_ok (WFTable_isObj (h2 t ht)) "heading")
  obtain ⟨pm, hpm, hpv⟩ := build_label_map_values (fun v => WFTable v = true)
    "heading" "Table" (fun e he => ⟨WFTable_isObj (h1 e he), h1 e he⟩)
  obtain ⟨cm, hcm, hcv⟩ := build_label_map_values (fun v => WFTable v = true)
    "heading" "Table" (fun e he => ⟨WFTable_isObj (h2 e he), h2 e he⟩)
  obtain ⟨ls, hls, hne⟩ := @flatMapME_ok String (table_key_lines pm cm)
    (unionKeys cm pm) (fun key _ => table_key_lines_ok key hpv hcv)
  refine ⟨(if ph ≠ ch then
      [puaStr ++ "üóÇÔ∏è Tableaux : " ++ stringify_value (.arr ph) 80 ++
        " -> " ++ stringify_value (.arr ch) 80] else []) ++ ls, ?_, ?_⟩
  · rw [summarize_table_changes, hph, ok_bind, hch, ok_bind, hpm, ok_bind,
      hcm, ok_bind, hls, ok_bind]
    rfl
  · intro s hs
    rcases List.mem_append.mp hs with h9 | h9
    · have h8 := mem_if_singleton h9
      subst h8
      exact sne5 (by decide)
    · exact hne s h9

theorem table_by_heading_ok (needle : String) :
    ∀ {tables : List JVal}, (∀ t ∈ tables, t.isObj = true) →
      ∃ r, table_by_heading tables needle = .ok r ∧
        ∀ t, r = some t → t ∈ tables
  | [], _ => ⟨none, rfl, fun t ht => Option.noConfusion ht⟩
  | t :: rest, h => by
      obtain ⟨hv, hhv⟩ := pyGet_ok (h t (List.mem_cons_self t rest)) "heading"
      by_cases hcond : pySubstr (pyLower needle)
          (pyLower (pyStr (pyOr hv (.str "")))) = true
      · refine ⟨some t, ?_, ?_⟩
        · rw [table_by_heading, hhv, ok_bind, if_pos hcond]
          rfl
        · intro t9 ht9
          rw [← Option.some.inj ht9]
          exact List.mem_cons_self t rest
      · obtain ⟨r, hr, hmem⟩ := table_by_heading_ok needle
          (fun a ha => h a (List.mem_cons_of_mem t ha))
        refine ⟨r, ?_, fun t9 ht9 => List.mem_cons_of_mem t (hmem t9 ht9)⟩
        rw [table_by_heading, hhv, ok_bind, if_neg hcond]
        exact hr

theorem rowLabelFromKey_ok {kc? : Option JVal} {rkvs : List (String × JVal)}
    (hkc : ∀ k, kc? = some k → k.isStr = true)
    (hrow : ∀ kv ∈ rkvs, kv.2.isStr = true) :
    ∃ fk, rowLabelFromKey kc? rkvs = .ok fk ∧
      ∀ v, fk = some v → v.isStr = true := by
  cases kc? with
  | none => exact ⟨none, rfl, fun v hv => Option.noConfusion hv⟩
  | some kc =>
      have hstr := hkc kc rfl
      cases kc with
      | str s =>
          rw [rowLabelFromKey]
          by_cases ht : JVal.truthy (.str s) = true
          · rw [if_pos ht, pyContainsJ, if_pos (str_hashable hstr), ok_bind]
            dsimp only
            by_cases hcb : (JVal.lookup? rkvs s).isSome = true
            · rw [if_pos hcb]
              refine ⟨_, rfl, ?_⟩
              intro v hv
              split at hv
              · have hv2 := (Option.some.inj hv).symm
                obtain ⟨w, hw⟩ := Option.isSome_iff_exists.mp hcb
                have hri : rowIndexJ rkvs (.str s) = w := by
                  rw [rowIndexJ, hw]
                  rfl
                rw [hv2, hri]
                exact hrow (s, w) (lookup?_mem hw)
              · exact Option.noConfusion hv
            · rw [if_neg hcb]
              exact ⟨none, rfl, fun v hv => Option.noConfusion hv⟩
          · rw [if_neg ht]
            exact ⟨none, rfl, fun v hv => Option.noConfusion hv⟩
      | null => simp [JVal.isStr] at hstr
      | bool b => simp [JVal.isStr] at hstr
      | num n => simp [JVal.isStr] at hstr
      | arr xs => simp [JVal.isStr] at hstr
      | obj kvs => simp [JVal.isStr] at hstr
      | tup xs => simp [JVal.isStr] at hstr

theorem rowValCandidate_ok {vc? : Option JVal} (rkvs : List (String × JVal))
    (hvc : ∀ k, vc? = some k → k.isStr = true) :
    ∃ uv, rowValCandidate vc? rkvs = .ok uv := by
  cases vc? with
  | none => exact ⟨none, rfl⟩
  | some vc =>
      rw [rowValCandidate]
      by_cases ht : vc.truthy = true
      · rw [if_pos ht, pyContainsJ.eq_def, if_pos (str_hashable (hvc vc rfl)),
          ok_bind]
        exact ⟨_, rfl⟩
      · rw [if_neg ht]
        exact ⟨none, rfl⟩

theorem findSome_label_str {rkvs : List (String × JVal)} {v : JVal}
    (h : (rkvs.findSome? fun kv =>
        match kv.2 with
        | .str s => if !s.data.isEmpty then some (JVal.str s) else none
        | _ => none) = some v) : v.isStr = true := by
  obtain ⟨kv, hmem, hkv⟩ := List.exists_of_findSome?_eq_some h
  obtain ⟨k0, v0⟩ := kv
  cases v0 with
  | str s =>
      have hkv2 : (if (!s.data.isEmpty) = true then some (JVal.str s)
          else none) = some v := hkv
      split at hkv2
      · rw [← Option.some.inj hkv2]
        rfl
      · exact Option.noConfusion hkv2
  | null => exact Option.noConfusion hkv
  | bool b => exact Option.noConfusion hkv
  | num n => exact Option.noConfusion hkv
  | arr xs => exact Option.noConfusion hkv
  | obj kvs => exact Option.noConfusion hkv
  | tup xs => exact Option.noConfusion hkv

theorem row_maps_insert_ok {keyCol valCol : Option JVal}
    {headers : List JVal}
    (hvc : ∀ k, valCol = some k → k.isStr = true)
    (hhd : ∀ x ∈ headers, x.isStr = true)
    (st : List (JVal × JVal) × List (JVal × JVal))
    (rkvs : List (String × JVal)) {l : JVal} (hlstr : l.isStr = true) :
    ∃ st2, row_maps_insert keyCol valCol headers st rkvs l = .ok st2 := by
  rw [row_maps_insert]
  by_cases hlt : l.truthy = true
  · have h1 : (!l.truthy) = false := by rw [hlt]; rfl
    have h2 : (!l.hashable) = false := by
      rw [str_hashable hlstr]
      rfl
    rw [h1, if_neg Bool.false_ne_true, h2, if_neg Bool.false_ne_true]
    obtain ⟨uv, huv⟩ := rowValCandidate_ok rkvs hvc
    rw [huv, ok_bind]
    cases uv with
    | some vv => exact ⟨_, rfl⟩
    | none =>
        cases headers with
        | nil => exact ⟨_, rfl⟩
        | cons a t1 =>
            cases t1 with
            | nil => exact ⟨_, rfl⟩
            | cons second t2 =>
                have hsec : second.isStr = true :=
                  hhd second (List.mem_cons_of_mem a
                    (List.mem_cons_self second t2))
                dsimp only
                rw [pyDictGetJD.eq_def, if_pos (str_hashable hsec), ok_bind]
                exact ⟨_, rfl⟩
  · have h1 : (!l.truthy) = true := by
      rw [Bool.eq_false_iff.mpr hlt]
      rfl
    rw [h1, if_pos rfl]
    exact ⟨st, rfl⟩

theorem row_maps_step_ok {keyCol valCol : Option JVal} {headers : List JVal}
    (hkc : ∀ k, keyCol = some k → k.isStr = true)
    (hvc : ∀ k, valCol = some k → k.isStr = true)
    (hhd : ∀ x ∈ headers, x.isStr = true)
    (st : List (JVal × JVal) × List (JVal × JVal)) (row : JVal)
    (hrow : ∀ rkvs, row = .obj rkvs → ∀ kv ∈ rkvs, kv.2.isStr = true) :
    ∃ st2, row_maps_step keyCol valCol headers st row = .ok st2 := by
  cases row with
  | obj rkvs =>
      have hrows := hrow rkvs rfl
      obtain ⟨fk, hfk, hfkstr⟩ := rowLabelFromKey_ok hkc hrows
      rw [row_maps_step, hfk, ok_bind]
      cases fk with
      | some lv =>
          exact row_maps_insert_ok hvc hhd st rkvs (hfkstr lv rfl)
      | none =>
          dsimp only
          rcases hfs : (rkvs.findSome? fun kv : String × JVal =>
              match kv.2 with
              | .str s => if !s.data.isEmpty then some (JVal.str s) else none
              | _ => none) with _ | l
          · exact ⟨st, rfl⟩
          · exact row_maps_insert_ok hvc hhd st rkvs (findSome_label_str hfs)
  | null => exact ⟨st, rfl⟩
  | bool b => exact ⟨st, rfl⟩
  | num n => exact ⟨st, rfl⟩
  | str s => exact ⟨st, rfl⟩
  | arr xs => exact ⟨st, rfl⟩
  | tup xs => exact ⟨st, rfl⟩

theorem pure_ok {α : Type} (a : α) : (pure a : Except String α) = .ok a := rfl

theorem mem_of_head? {α : Type} {l : List α} {a : α} (h : l.head? = some a) :
    a ∈ l := by
  cases l with
  | nil => exact Option.noConfusion h
  | cons x t =>
      rw [← Option.some.inj h]
      exact List.mem_cons_self x t

theorem mem_of_second? {α : Type} {l : List α} {a : α} (h : l[1]? = some a) :
    a ∈ l := by
  cases l with
  | nil => exact Option.noConfusion h
  | cons x t =>
      cases t with
      | nil => exact Option.noConfusion h
      | cons y t2 =>
          simp only [List.getElem?_cons_succ, List.getElem?_cons_zero] at h
          rw [← Option.some.inj h]
          exact List.mem_cons_of_mem x (List.mem_cons_self y t2)

theorem row_maps_ok {t : JVal} (h : WFTable t = true) :
    ∃ r, row_maps t = .ok r := by
  cases t with
  | obj kvs =>
      rw [row_maps]
      have hgr : (JVal.obj kvs).pyGetD "rows" (.arr []) =
          .ok ((JVal.lookup? kvs "rows").getD (.arr [])) := rfl
      have hgh : (JVal.obj kvs).pyGetD "headers" (.arr []) =
          .ok ((JVal.lookup? kvs "headers").getD (.arr [])) := rfl
      rw [hgr, ok_bind, hgh, ok_bind]
      have hhp : ∀ x ∈ (match (JVal.lookup? kvs "headers").getD (.arr []) with
          | .arr hs => hs
          | _ => ([] : List JVal)), x.isStr = true := by
        rcases hh : JVal.lookup? kvs "headers" with _ | hv
        · intro x hx
          exact absurd hx (List.not_mem_nil x)
        · cases hv with
          | arr hs =>
              intro x hx
              exact WFTable_headers h hh x hx
          | null => intro x hx; exact absurd hx (List.not_mem_nil x)
          | bool b => intro x hx; exact absurd hx (List.not_mem_nil x)
          | num n => intro x hx; exact absurd hx (List.not_mem_nil x)
          | str s => intro x hx; exact absurd hx (List.not_mem_nil x)
          | obj kvs2 => intro x hx; exact absurd hx (List.not_mem_nil x)
          | tup xs => intro x hx; exact absurd hx (List.not_mem_nil x)
      have hrp : ∀ row ∈ (match (JVal.lookup? kvs "rows").getD (.arr []) with
          | .arr rs => rs
          | _ => ([] : List JVal)), ∀ rkvs, row = .obj rkvs →
          ∀ kv ∈ rkvs, kv.2.isStr = true := by
        rcases hr : JVal.lookup? kvs "rows" with _ | r
        · intro row hrow
          exact absurd hrow (List.not_mem_nil row)
        · cases r with
          | arr rs =>
              intro row hrow rkvs hrkvs kv hkv
              exact (WFTable_rows h hr).2 rs rfl row hrow rkvs hrkvs kv hkv
          | null => intro row hrow; exact absurd hrow (List.not_mem_nil row)
          | bool b => intro row hrow; exact absurd hrow (List.not_mem_nil row)
          | num n => intro row hrow; exact absurd hrow (List.not_mem_nil row)
          | str s => intro row hrow; exact absurd hrow (List.not_mem_nil row)
          | obj kvs2 =>
              intro row hrow
              exact absurd hrow (List.not_mem_nil row)
          | tup xs => intro row hrow; exact absurd hrow (List.not_mem_nil row)
      dsimp only
      apply foldlME_ok
      intro s9 x hx
      apply row_maps_step_ok
      · exact fun k hk => hhp k (mem_of_head? hk)
      · exact fun k hk => hhp k (mem_of_second? hk)
      · exact hhp
      · exact hrp x hx
  | null => simp [WFTable] at h
  | bool b => simp [WFTable] at h
  | num n => simp [WFTable] at h
  | str s => simp [WFTable] at h
  | arr xs => simp [WFTable] at h
  | tup xs => simp [WFTable] at h

theorem rowsVal_ok {t : JVal} (h : WFTable t = true) :
    ∃ rv, t.pyGetD "rows" (.arr []) = .ok rv ∧ sized rv = true ∧
      ∀ rs, rv = .arr rs → ∀ row ∈ rs, ∀ rkvs, row = .obj rkvs →
        ∀ kv ∈ rkvs, kv.2.isStr = true := by
  cases t with
  | obj kvs =>
      refine ⟨(JVal.lookup? kvs "rows").getD (.arr []), rfl, ?_, ?_⟩
      · rcases hr : JVal.lookup? kvs "rows" with _ | r
        · rfl
        · exact (WFTable_rows h hr).1
      · rcases hr : JVal.lookup? kvs "rows" with _ | r
        · intro rs hrs row hrow
          have h9 : ([] : List JVal) = rs := JVal.arr.inj hrs
          rw [← h9] at hrow
          exact absurd hrow (List.not_mem_nil row)
        · intro rs hrs
          exact (WFTable_rows h hr).2 rs hrs
  | null => simp [WFTable] at h
  | bool b => simp [WFTable] at h
  | num n => simp [WFTable] at h
  | str s => simp [WFTable] at h
  | arr xs => simp [WFTable] at h
  | tup xs => simp [WFTable] at h

theorem tbh_opt_ok {tables : List JVal} (needle : String)
    (h : ∀ t ∈ tables, WFTable t = true) :
    ∃ r, table_by_heading_opt tables needle = .ok r ∧
      ∀ t, r = some t → WFTable t = true := by
  rw [table_by_heading_opt]
  split
  · exact ⟨none, rfl, fun t ht => Option.noConfusion ht⟩
  · obtain ⟨r, hr, hmem⟩ := table_by_heading_ok needle
      (fun t ht => WFTable_isObj (h t ht))
    exact ⟨r, hr, fun t ht => h t (hmem t ht)⟩

theorem pyOr_table_wf {pt : Option JVal}
    (hwf : ∀ t, pt = some t → WFTable t = true) :
    WFTable (pyOr (pt.getD .null) (.obj [])) = true := by
  cases pt with
  | none => rfl
  | some p =>
      have hp := hwf p rfl
      simp only [Option.getD_some]
      rw [pyOr]
      by_cases ht : p.truthy = true
      · rw [if_pos ht]
        exact hp
      · rw [if_neg ht]
        rfl

theorem opt_rows_ok {pt : Option JVal}
    (hwf : ∀ t, pt = some t → WFTable t = true) :
    ∃ rv, rows_if_obj (pt.getD .null) = .ok rv ∧ sized rv = true := by
  cases pt with
  | none => exact ⟨.arr [], rfl, rfl⟩
  | some p =>
      have hp := hwf p rfl
      obtain ⟨rv, hrv, hsz, _⟩ := rowsVal_ok hp
      refine ⟨rv, ?_, hsz⟩
      simp only [Option.getD_some]
      rw [rows_if_obj, if_pos (WFTable_isObj hp)]
      exact hrv

theorem summarize_synthese_ok {prevTables currTables : List JVal}
    (h1 : ∀ t ∈ prevTables, WFTable t = true)
    (h2 : ∀ t ∈ currTables, WFTable t = true) :
    ∃ r, summarize_synthese prevTables currTables = .ok r := by
  obtain ⟨pt, hpt, hptwf⟩ := tbh_opt_ok "Synth√®se annuelle" h1
  obtain ⟨ct, hct, hctwf⟩ := tbh_opt_ok "Synth√®se annuelle" h2
  rw [summarize_synthese, hpt, ok_bind, hct, ok_bind]
  cases ct with
  | none => exact ⟨none, rfl⟩
  | some c =>
      have hcwf := hctwf c rfl
      simp only [Option.getD_some]
      by_cases htr : c.truthy = true
      · have hb : (!c.truthy) = false := by rw [htr]; rfl
        rw [hb, if_neg Bool.false_ne_true]
        obtain ⟨prv, hprv, hpsz⟩ := opt_rows_ok hptwf
        rw [hprv, ok_bind]
        obtain ⟨crv, hcrv, hcsz, _⟩ := rowsVal_ok hcwf
        have hcif : rows_if_obj c = .ok crv := by
          rw [rows_if_obj, if_pos (WFTable_isObj hcwf)]
          exact hcrv
        rw [hcif, ok_bind]
        obtain ⟨pl, hpl⟩ := pyLen_ok hpsz
        obtain ⟨cl, hcl⟩ := pyLen_ok hcsz
        rw [hpl, ok_bind, hcl, ok_bind]
        obtain ⟨pmaps, hpm⟩ := row_maps_ok (pyOr_table_wf hptwf)
        rw [hpm, ok_bind]
        obtain ⟨cmaps, hcm⟩ := row_maps_ok hcwf
        rw [hcm, ok_bind]
        split
        · exact ⟨_, rfl⟩
        · exact ⟨_, rfl⟩
      · have hb : (!c.truthy) = true := by
          rw [Bool.eq_false_iff.mpr htr]
          rfl
        rw [hb, if_pos rfl]
        exact ⟨none, rfl⟩

theorem summarize_releve_ok {prevTables currTables : List JVal}
    (h1 : ∀ t ∈ prevTables, WFTable t = true)
    (h2 : ∀ t ∈ currTables, WFTable t = true) :
    ∃ ls, summarize_releve prevTables currTables = .ok ls := by
  obtain ⟨pt, hpt, hptwf⟩ := tbh_opt_ok "Relev√©" h1
  obtain ⟨ct, hct, hctwf⟩ := tbh_opt_ok "Relev√©" h2
  rw [summarize_releve, hpt, ok_bind, hct, ok_bind]
  cases ct with
  | none => exact ⟨[], rfl⟩
  | some c =>
      have hcwf := hctwf c rfl
      simp only [Option.getD_some]
      by_cases htr : c.truthy = true
      · have hb : (!c.truthy) = false := by rw [htr]; rfl
        rw [hb, if_neg Bool.false_ne_true]
        obtain ⟨prv, hprv, hpsz⟩ := opt_rows_ok hptwf
        rw [hprv, ok_bind]
        obtain ⟨crv, hcrv, hcsz, _⟩ := rowsVal_ok hcwf
        have hcif : rows_if_obj c = .ok crv := by
          rw [rows_if_obj, if_pos (WFTable_isObj hcwf)]
          exact hcrv
        rw [hcif, ok_bind]
        obtain ⟨pl, hpl⟩ := pyLen_ok hpsz
        obtain ⟨cl, hcl⟩ := pyLen_ok hcsz
        rw [hpl, ok_bind, hcl, ok_bind]
        have hcle : ∃ cls, releve_count_line c pl cl = .ok cls := by
          rw [releve_count_line]
          split
          · obtain ⟨hv, hhv⟩ := pyGetD_ok (WFTable_isObj hcwf) "heading"
              (.str "Relev√©")
            exact ⟨_, by rw [hhv, ok_bind]; rfl⟩
          · exact ⟨[], rfl⟩
        obtain ⟨cls, hcls⟩ := hcle
        rw [hcls, ok_bind]
        exact ⟨_, rfl⟩
      · have hb : (!c.truthy) = true := by
          rw [Bool.eq_false_iff.mpr htr]
          rfl
        rw [hb, if_pos rfl]
        exact ⟨[], rfl⟩

theorem mem_detect_new_rows_go : ∀ {rem c : List JVal} {r : JVal},
    r ∈ detect_new_rows_go rem c → r ∈ c
  | _, [], _, h => absurd h (List.not_mem_nil _)
  | rem, x :: xs, r, h => by
      rw [detect_new_rows_go] at h
      rcases hrf : removeFirst rem x with _ | rem2
      · rw [hrf] at h
        rcases List.mem_cons.mp h with h9 | h9
        · rw [h9]
          exact List.mem_cons_self x xs
        · exact List.mem_cons_of_mem x (mem_detect_new_rows_go h9)
      · rw [hrf] at h
        exact List.mem_cons_of_mem x (mem_detect_new_rows_go h)

theorem mem_if_pos {α : Type} {P : Prop} [Decidable P] {l s : α}
    (hs : s ∈ (if P then [l] else [])) : P ∧ s = l := by
  split at hs
  · rename_i hp
    exact ⟨hp, List.mem_singleton.mp hs⟩
  · exact absurd hs (List.not_mem_nil s)

theorem getD_null_truthy_str {rkvs : List (String × JVal)}
    (hrow : ∀ kv ∈ rkvs, kv.2.isStr = true) (k : String)
    (ht : ((JVal.lookup? rkvs k).getD .null).truthy = true) :
    ((JVal.lookup? rkvs k).getD .null).isStr = true := by
  rcases hl : JVal.lookup? rkvs k with _ | w
  · rw [hl] at ht
    exact absurd ht (by decide)
  · simp only [Option.getD_some]
    exact hrow (k, w) (lookup?_mem hl)

theorem bind_join_ok {parts : List JVal} {β : Type}
    {k : String → Except String β} (Q : β → Prop)
    (hp : ∀ p ∈ parts, p.isStr = true)
    (hk : ∀ m, ∃ r, k m = .ok r ∧ Q r) :
    ∃ r, (pyJoinVals ", " parts >>= k) = .ok r ∧ Q r := by
  have hall : (parts.all fun p => p.isStr) = true := List.all_eq_true.mpr hp
  obtain ⟨r, hr, hq⟩ := hk (joinSep ", " (parts.map fun p =>
    match p with | .str s => s | _ => ""))
  refine ⟨r, ?_, hq⟩
  rw [pyJoinVals.eq_def, if_pos hall, ok_bind]
  exact hr

theorem note_frais_row_lines_ok {row : JVal}
    (hrow : ∀ rkvs, row = .obj rkvs → ∀ kv ∈ rkvs, kv.2.isStr = true) :
    ∃ ls, note_frais_row_lines row = .ok ls ∧ ∀ s ∈ ls, s ≠ "" := by
  cases row with
  | obj rkvs =>
      have hrows := hrow rkvs rfl
      rw [note_frais_row_lines]
      by_cases hh : looks_like_header_row (.obj rkvs) = true
      · rw [if_pos hh]
        exact ⟨[], rfl, fun s hs => absurd hs (List.not_mem_nil s)⟩
      · rw [if_neg hh]
        apply bind_join_ok (fun ls => ∀ s ∈ ls, s ≠ "")
        · intro p hp9
          rcases List.mem_append.mp hp9 with h9 | h9
          · rcases List.mem_append.mp h9 with h8 | h8
            · rcases List.mem_append.mp h8 with h7 | h7
              · obtain ⟨hcond, heq⟩ := mem_if_pos h7
                rw [heq]
                exact getD_null_truthy_str hrows "MOIS" hcond
              · obtain ⟨hcond, heq⟩ := mem_if_pos h7
                rw [heq]
                exact getD_null_truthy_str hrows "ANNEE" hcond
            · obtain ⟨hcond, heq⟩ := mem_if_pos h8
              rw [heq]
              exact getD_null_truthy_str hrows "TYPE" hcond
          · obtain ⟨hcond, heq⟩ := mem_if_pos h9
            rw [heq]
            rfl
        · intro m
          refine ⟨_, rfl, ?_⟩
          intro s hs
          have h9 := List.mem_singleton.mp hs
          subst h9
          split
          · exact sne6 (by decide)
          · exact sne3 (by decide)
  | null => exact ⟨[], rfl, fun s hs => absurd hs (List.not_mem_nil s)⟩
  | bool b => exact ⟨[], rfl, fun s hs => absurd hs (List.not_mem_nil s)⟩
  | num n => exact ⟨[], rfl, fun s hs => absurd hs (List.not_mem_nil s)⟩
  | str s => exact ⟨[], rfl, fun s hs => absurd hs (List.not_mem_nil s)⟩
  | arr xs => exact ⟨[], rfl, fun s hs => absurd hs (List.not_mem_nil s)⟩
  | tup xs => exact ⟨[], rfl, fun s hs => absurd hs (List.not_mem_nil s)⟩

theorem summarize_note_frais_ok {prevTables currTables : List JVal}
    (h1 : ∀ t ∈ prevTables, WFTable t = true)
    (h2 : ∀ t ∈ currTables, WFTable t = true) :
    ∃ ls, summarize_note_frais prevTables currTables = .ok ls := by
  obtain ⟨pt, hpt, hptwf⟩ := tbh_opt_ok "Note de frais" h1
  obtain ⟨ct, hct, hctwf⟩ := tbh_opt_ok "Note de frais" h2
  rw [summarize_note_frais, hpt, ok_bind, hct, ok_bind]
  cases ct with
  | none => exact ⟨[], rfl⟩
  | some c =>
      have hcwf := hctwf c rfl
      simp only [Option.getD_some]
      by_cases htr : c.truthy = true
      · have hb : (!c.truthy) = false := by rw [htr]; rfl
        rw [hb, if_neg Bool.false_ne_true]
        obtain ⟨prv, hprv, _⟩ := opt_rows_ok hptwf
        rw [hprv, ok_bind]
        obtain ⟨crv, hcrv, _, hcrows⟩ := rowsVal_ok hcwf
        have hcif : rows_if_obj c = .ok crv := by
          rw [rows_if_obj, if_pos (WFTable_isObj hcwf)]
          exact hcrv
        rw [hcif, ok_bind]
        have hrowsp : ∀ row ∈ listOfRows crv, ∀ rkvs, row = .obj rkvs →
            ∀ kv ∈ rkvs, kv.2.isStr = true := by
          cases crv with
          | arr xs =>
              intro row hrow
              exact hcrows xs rfl row hrow
          | null => intro row hrow; exact absurd hrow (List.not_mem_nil row)
          | bool b => intro row hrow; exact absurd hrow (List.not_mem_nil row)
          | num n => intro row hrow; exact absurd hrow (List.not_mem_nil row)
          | str s => intro row hrow; exact absurd hrow (List.not_mem_nil row)
          | obj kvs2 =>
              intro row hrow
              exact absurd hrow (List.not_mem_nil row)
          | tup xs => intro row hrow; exact absurd hrow (List.not_mem_nil row)
        obtain ⟨ls, hls, _⟩ := @flatMapME_ok JVal note_frais_row_lines
          (detect_new_rows (listOfRows prv) (listOfRows crv))
          (fun row hmem => note_frais_row_lines_ok
            (hrowsp row (mem_detect_new_rows_go hmem)))
        exact ⟨ls, hls⟩
      · have hb : (!c.truthy) = true := by
          rw [Bool.eq_false_iff.mpr htr]
          rfl
        rw [hb, if_pos rfl]
        exact ⟨[], rfl⟩

/-- C2 counterexample: each of the five domain summarizers raises
`AttributeError` on a list whose single entry is the number `5` (the
`.get` calls of `_build_label_map`, the heading comprehension and
`_table_by_heading` all assume dict entries). -/
theorem C2_counterexample :
    summarize_tile_changes [] [.num 5] = .error "AttributeError" ∧
    summarize_table_changes [] [.num 5] = .error "AttributeError" ∧
    summarize_synthese [] [.num 5] = .error "AttributeError" ∧
    summarize_releve [] [.num 5] = .error "AttributeError" ∧
    summarize_note_frais [] [.num 5] = .error "AttributeError" :=
  ⟨rfl, rfl, rfl, rfl, rfl⟩

/-- C2 amended: the five domain summarizers are *not* total on arbitrary
malformed input — non-dict entries raise `AttributeError` (and non-sized
`rows` values, unhashable labels or non-string metadata raise `TypeError`).
They do return a value without raising on well-formed shapes: dict tiles,
and dict tables whose `rows` value (when present) is sized with string-valued
dict rows and whose `headers` list (when present) holds strings;
well-formedness of the skipped entries (absent fields, non-dict rows,
falsy labels) is handled by skipping, as claimed. -/
theorem C2_totality (prevTiles currTiles prevTables currTables : List JVal)
    (h1 : ∀ t ∈ prevTiles, t.isObj = true)
    (h2 : ∀ t ∈ currTiles, t.isObj = true)
    (h3 : ∀ t ∈ prevTables, WFTable t = true)
    (h4 : ∀ t ∈ currTables, WFTable t = true) :
    (∃ ls, summarize_tile_changes prevTiles currTiles = .ok ls) ∧
    (∃ ls, summarize_table_changes prevTables currTables = .ok ls) ∧
    (∃ r, summarize_synthese prevTables currTables = .ok r) ∧
    (∃ ls, summarize_releve prevTables currTables = .ok ls) ∧
    (∃ ls, summarize_note_frais prevTables currTables = .ok ls) := by
  obtain ⟨l1, hl1, _⟩ := summarize_tile_changes_ok h1 h2
  obtain ⟨l2, hl2, _⟩ := summarize_table_changes_ok h3 h4
  obtain ⟨r3, hr3⟩ := summarize_synthese_ok h3 h4
  obtain ⟨l4, hl4⟩ := summarize_releve_ok h3 h4
  obtain ⟨l5, hl5⟩ := summarize_note_frais_ok h3 h4
  exact ⟨⟨l1, hl1⟩, ⟨l2, hl2⟩, ⟨r3, hr3⟩, ⟨l4, hl4⟩, ⟨l5, hl5⟩⟩

/-- C2 witness: one well-formed tile and one well-formed ledger table (with
a row missing most fields) are summarized without an exception. -/
theorem C2_witness :
    (∃ ls, summarize_tile_changes []
      [.obj [("label", .str "A"), ("value", .str "1")]] = .ok ls) ∧
    (∃ ls, summarize_table_changes []
      [.obj [("heading", .str "Relev√©"),
        ("rows", .arr [.obj [("a", .str "x")]])]] = .ok ls) ∧
    (∃ r, summarize_synthese []
      [.obj [("heading", .str "Relev√©"),
        ("rows", .arr [.obj [("a", .str "x")]])]] = .ok r) ∧
    (∃ ls, summarize_releve []
      [.obj [("heading", .str "Relev√©"),
        ("rows", .arr [.obj [("a", .str "x")]])]] = .ok ls) ∧
    (∃ ls, summarize_note_frais []
      [.obj [("heading", .str "Relev√©"),
        ("rows", .arr [.obj [("a", .str "x")]])]] = .ok ls) :=
  C2_totality [] [.obj [("label", .str "A"), ("value", .str "1")]] []
    [.obj [("heading", .str "Relev√©"),
      ("rows", .arr [.obj [("a", .str "x")]])]]
    (fun t ht => absurd ht (List.not_mem_nil t))
    (fun t ht => by rw [List.mem_singleton.mp ht]; rfl)
    (fun t ht => absurd ht (List.not_mem_nil t))
    (fun t ht => by rw [List.mem_singleton.mp ht]; rfl)

/-! ### Non-emptiness of the diff summary -/

/-- Well-formed scraped document: a dict whose `tiles` value, when present,
is a list of dicts, and whose `tables` value, when present, is a list of
well-formed tables. -/
def WFDoc : JVal → Bool
  | .obj kvs =>
      (match JVal.lookup? kvs "tiles" with
        | some (.arr ts) => ts.all fun t => t.isObj
        | some _ => false
        | none => true) &&
      (match JVal.lookup? kvs "tables" with
        | some (.arr ts) => ts.all WFTable
        | some _ => false
        | none => true)
  | _ => false

theorem doc_tiles_iter_ok {kvs : List (String × JVal)}
    (h : WFDoc (.obj kvs) = true) :
    ∃ ts, ((JVal.lookup? kvs "tiles").getD (.arr [])).pyIter = .ok ts ∧
      ∀ t ∈ ts, t.isObj = true := by
  rw [WFDoc, Bool.and_eq_true] at h
  obtain ⟨h1, _⟩ := h
  rcases hl : JVal.lookup? kvs "tiles" with _ | v
  · exact ⟨[], rfl, fun t ht => absurd ht (List.not_mem_nil t)⟩
  · rw [hl] at h1
    cases v with
    | arr ts =>
        refine ⟨ts, rfl, ?_⟩
        have h2 : (ts.all fun t => t.isObj) = true := h1
        exact List.all_eq_true.mp h2
    | null => exact Bool.noConfusion (h1 : false = true)
    | bool b => exact Bool.noConfusion (h1 : false = true)
    | num n => exact Bool.noConfusion (h1 : false = true)
    | str s => exact Bool.noConfusion (h1 : false = true)
    | obj kvs2 => exact Bool.noConfusion (h1 : false = true)
    | tup xs => exact Bool.noConfusion (h1 : false = true)

theorem doc_tables_iter_ok {kvs : List (String × JVal)}
    (h : WFDoc (.obj kvs) = true) :
    ∃ ts, ((JVal.lookup? kvs "tables").getD (.arr [])).pyIter = .ok ts ∧
      ∀ t ∈ ts, WFTable t = true := by
  rw [WFDoc, Bool.and_eq_true] at h
  obtain ⟨_, h2⟩ := h
  rcases hl : JVal.lookup? kvs "tables" with _ | v
  · exact ⟨[], rfl, fun t ht => absurd ht (List.not_mem_nil t)⟩
  · rw [hl] at h2
    cases v with
    | arr ts =>
        refine ⟨ts, rfl, ?_⟩
        have h3 : (ts.all WFTable) = true := h2
        exact List.all_eq_true.mp h3
    | null => exact Bool.noConfusion (h2 : false = true)
    | bool b => exact Bool.noConfusion (h2 : false = true)
    | num n => exact Bool.noConfusion (h2 : false = true)
    | str s => exact Bool.noConfusion (h2 : false = true)
    | obj kvs2 => exact Bool.noConfusion (h2 : false = true)
    | tup xs => exact Bool.noConfusion (h2 : false = true)

theorem doc_tables_val {kvs : List (String × JVal)}
    (h : WFDoc (.obj kvs) = true) :
    ∃ tv, (JVal.obj kvs).pyGet "tables" = .ok tv ∧
      (tv = .null ∨ ∃ ts, tv = .arr ts ∧ ∀ t ∈ ts, WFTable t = true) := by
  rw [WFDoc, Bool.and_eq_true] at h
  obtain ⟨_, h2⟩ := h
  refine ⟨(JVal.lookup? kvs "tables").getD .null, rfl, ?_⟩
  rcases hl : JVal.lookup? kvs "tables" with _ | v
  · left
    rfl
  · rw [hl] at h2
    cases v with
    | arr ts =>
        right
        refine ⟨ts, rfl, ?_⟩
        have h3 : (ts.all WFTable) = true := h2
        exact List.all_eq_true.mp h3
    | null => exact Bool.noConfusion (h2 : false = true)
    | bool b => exact Bool.noConfusion (h2 : false = true)
    | num n => exact Bool.noConfusion (h2 : false = true)
    | str s => exact Bool.noConfusion (h2 : false = true)
    | obj kvs2 => exact Bool.noConfusion (h2 : false = true)
    | tup xs => exact Bool.noConfusion (h2 : false = true)

theorem WFTable_headers_list {kvs : List (String × JVal)}
    (h : WFTable (.obj kvs) = true) :
    ∀ x ∈ listOfRows ((JVal.lookup? kvs "headers").getD (.arr [])),
      x.isStr = true := by
  rcases hh : JVal.lookup? kvs "headers" with _ | hv
  · intro x hx
    exact absurd hx (List.not_mem_nil x)
  · cases hv with
    | arr hs =>
        intro x hx
        have hx2 : x ∈ hs := hx
        exact WFTable_headers h hh x hx2
    | null => intro x hx; exact absurd hx (List.not_mem_nil x)
    | bool b => intro x hx; exact absurd hx (List.not_mem_nil x)
    | num n => intro x hx; exact absurd hx (List.not_mem_nil x)
    | str s => intro x hx; exact absurd hx (List.not_mem_nil x)
    | obj kvs2 => intro x hx; exact absurd hx (List.not_mem_nil x)
    | tup xs => intro x hx; exact absurd hx (List.not_mem_nil x)

theorem exists_ok_if {α : Type} {c : Prop} [Decidable c]
    {x y : Except String α} (hx : ∃ r, x = .ok r) (hy : ∃ r, y = .ok r) :
    ∃ r, (if c then x else y) = .ok r := by
  by_cases h : c
  · rw [if_pos h]
    exact hx
  · rw [if_neg h]
    exact hy

theorem humanize_row_label_ok {tkvs rkvs : List (String × JVal)}
    (hhd : ∀ x ∈ listOfRows ((JVal.lookup? tkvs "headers").getD (.arr [])),
      x.isStr = true) :
    ∃ r, humanize_row_label tkvs rkvs = .ok r := by
  rw [humanize_row_label]
  dsimp only
  rcases hhl : listOfRows ((JVal.lookup? tkvs "headers").getD (.arr []))
    with _ | ⟨fh, rest⟩
  · exact ⟨_, rfl⟩
  · have hfh : fh.isStr = true := hhd fh (by
      rw [hhl]
      exact List.mem_cons_self fh rest)
    cases fh with
    | str s =>
        dsimp only
        rw [pyDictGetJ.eq_def]
        rw [if_pos (str_hashable hfh), ok_bind]
        dsimp only
        rcases hlv : JVal.lookup? rkvs s with _ | w
        · exact ⟨_, rfl⟩
        · cases w with
          | str s2 => exact exists_ok_if ⟨_, rfl⟩ ⟨_, rfl⟩
          | null => exact ⟨_, rfl⟩
          | bool b => exact ⟨_, rfl⟩
          | num n => exact ⟨_, rfl⟩
          | arr xs => exact ⟨_, rfl⟩
          | obj kvs2 => exact ⟨_, rfl⟩
          | tup xs => exact ⟨_, rfl⟩
    | null => exact Bool.noConfusion hfh
    | bool b => exact Bool.noConfusion hfh
    | num n => exact Bool.noConfusion hfh
    | arr xs => exact Bool.noConfusion hfh
    | obj kvs2 => exact Bool.noConfusion hfh
    | tup xs => exact Bool.noConfusion hfh

theorem tables_or_ok {ctb prev : JVal}
    (hprev : ∃ tv, prev.pyGet "tables" = .ok tv ∧
      (tv = .null ∨ ∃ ts, tv = .arr ts ∧ ∀ t ∈ ts, WFTable t = true))
    (hctb : ctb = .null ∨ ∃ ts, ctb = .arr ts ∧ ∀ t ∈ ts, WFTable t = true) :
    ∃ tv, tables_or ctb prev = .ok tv ∧
      ∀ ts, tv = .arr ts → ∀ t ∈ ts, WFTable t = true := by
  rw [tables_or]
  by_cases ht : ctb.truthy = true
  · rw [if_pos ht]
    refine ⟨ctb, rfl, ?_⟩
    intro ts hts t htm
    rcases hctb with h9 | ⟨ts2, hts2, hwf⟩
    · rw [h9] at hts
      exact JVal.noConfusion hts
    · rw [hts2] at hts
      rw [← JVal.arr.inj hts] at htm
      exact hwf t htm
  · rw [if_neg ht]
    obtain ⟨ptb, hptb, hfact⟩ := hprev
    rw [hptb, ok_bind]
    refine ⟨pyOr ptb (.arr []), rfl, ?_⟩
    intro ts hts t htm
    rw [pyOr] at hts
    split at hts
    · rcases hfact with h9 | ⟨ts2, hts2, hwf⟩
      · rw [h9] at hts
        exact JVal.noConfusion hts
      · rw [hts2] at hts
        rw [← JVal.arr.inj hts] at htm
        exact hwf t htm
    · rw [← JVal.arr.inj hts] at htm
      exact absurd htm (List.not_mem_nil t)

theorem mem_of_getElem? {α : Type} : ∀ {l : List α} {n : Nat} {a : α},
    l[n]? = some a → a ∈ l
  | [], _, _, h => Option.noConfusion h
  | x :: t, 0, a, h => by
      rw [List.getElem?_cons_zero] at h
      rw [← Option.some.inj h]
      exact List.mem_cons_self x t
  | x :: t, n + 1, a, h => by
      rw [List.getElem?_cons_succ] at h
      exact List.mem_cons_of_mem x (mem_of_getElem? h)

theorem humanize_ok {path : String} {prev curr : JVal}
    (hp : WFDoc prev = true) (hc : WFDoc curr = true) :
    ∃ r, humanize_diff_path path prev curr = .ok r := by
  cases curr with
  | obj ckvs =>
      cases prev with
      | obj pkvs =>
          rw [humanize_diff_path.eq_def]
          rcases hpt : parseTablePath path with _ | ⟨tIdx, rIdx, colKey⟩
          · exact ⟨none, rfl⟩
          · dsimp only
            obtain ⟨ctb, hctb, hctbf⟩ := doc_tables_val hc
            rw [hctb, ok_bind]
            obtain ⟨tv, htv, htvf⟩ := tables_or_ok (doc_tables_val hp) hctbf
            rw [htv, ok_bind]
            cases tv with
            | arr ts =>
                dsimp only
                split
                · exact ⟨none, rfl⟩
                · rename_i tb hidx
                  have htb : WFTable tb = true :=
                    htvf ts rfl tb (mem_of_getElem? hidx)
                  cases tb with
                  | obj tkvs =>
                      dsimp only
                      split
                      · rename_i rkvs hrv
                        obtain ⟨rl, hrl⟩ :=
                          humanize_row_label_ok (WFTable_headers_list htb)
                        rw [hrl, ok_bind]
                        exact ⟨_, rfl⟩
                      · exact ⟨_, rfl⟩
                      · exact ⟨_, rfl⟩
                      · exact ⟨_, rfl⟩
                  | null => exact ⟨none, rfl⟩
                  | bool b => exact ⟨none, rfl⟩
                  | num n => exact ⟨none, rfl⟩
                  | str s => exact ⟨none, rfl⟩
                  | arr xs => exact ⟨none, rfl⟩
                  | tup xs => exact ⟨none, rfl⟩
            | null => exact ⟨none, rfl⟩
            | bool b => exact ⟨none, rfl⟩
            | num n => exact ⟨none, rfl⟩
            | str s => exact ⟨none, rfl⟩
            | obj kvs2 => exact ⟨none, rfl⟩
            | tup xs => exact ⟨none, rfl⟩
      | null => simp [WFDoc] at hp
      | bool b => simp [WFDoc] at hp
      | num n => simp [WFDoc] at hp
      | str s => simp [WFDoc] at hp
      | arr xs => simp [WFDoc] at hp
      | tup xs => simp [WFDoc] at hp
  | null => simp [WFDoc] at hc
  | bool b => simp [WFDoc] at hc
  | num n => simp [WFDoc] at hc
  | str s => simp [WFDoc] at hc
  | arr xs => simp [WFDoc] at hc
  | tup xs => simp [WFDoc] at hc

theorem summarize_changes_post_ok {prev curr : JVal}
    {baseLines : List String} (diff : Option (String × JVal × JVal))
    (hp : WFDoc prev = true) (hc : WFDoc curr = true)
    (hbase : ∀ s ∈ baseLines, s ≠ "") :
    ∃ L, summarize_changes_post prev curr baseLines diff = .ok L ∧
      L ≠ [] ∧ ∀ s ∈ L, s ≠ "" := by
  cases diff with
  | none =>
      rw [summarize_changes_post]
      refine ⟨_, rfl, ?_, ?_⟩
      · split
        · exact List.cons_ne_nil _ _
        · rename_i hcond
          intro hnil
          exact hcond (by rw [hnil]; rfl)
      · split
        · intro s hs
          rw [List.mem_singleton.mp hs]
          decide
        · exact hbase
  | some triple =>
      obtain ⟨path, before, after⟩ := triple
      obtain ⟨fr, hfr⟩ := humanize_ok hp hc
      rw [summarize_changes_post, hfr, ok_bind]
      dsimp only
      refine ⟨_, rfl, ?_, ?_⟩
      · split
        · rename_i hcont
          exact List.ne_nil_of_mem (List.elem_iff.mp hcont)
        · exact List.cons_ne_nil _ _
      · split
        · exact hbase
        · intro s hs
          rcases List.mem_cons.mp hs with h9 | h9
          · rw [h9]
            exact sne6 (by decide)
          · exact hbase s h9

theorem summarize_changes_list_ok {prev curr : JVal}
    (hp : WFDoc prev = true) (hc : WFDoc curr = true) :
    ∃ L, summarize_changes_list prev curr = .ok L ∧ L ≠ [] ∧
      ∀ s ∈ L, s ≠ "" := by
  cases prev with
  | obj pkvs =>
      cases curr with
      | obj ckvs =>
          rw [summarize_changes_list]
          have hg1 : (JVal.obj pkvs).pyGetD "tiles" (.arr []) =
              .ok ((JVal.lookup? pkvs "tiles").getD (.arr [])) := rfl
          have hg2 : (JVal.obj ckvs).pyGetD "tiles" (.arr []) =
              .ok ((JVal.lookup? ckvs "tiles").getD (.arr [])) := rfl
          rw [hg1, ok_bind, hg2, ok_bind]
          obtain ⟨pts, hpts, hptso⟩ := doc_tiles_iter_ok hp
          obtain ⟨cts, hcts, hctso⟩ := doc_tiles_iter_ok hc
          rw [hpts, ok_bind, hcts, ok_bind]
          obtain ⟨tl, htl, htlne⟩ := summarize_tile_changes_ok hptso hctso
          rw [htl, ok_bind]
          have hg3 : (JVal.obj pkvs).pyGetD "tables" (.arr []) =
              .ok ((JVal.lookup? pkvs "tables").getD (.arr [])) := rfl
          have hg4 : (JVal.obj ckvs).pyGetD "tables" (.arr []) =
              .ok ((JVal.lookup? ckvs "tables").getD (.arr [])) := rfl
          rw [hg3, ok_bind, hg4, ok_bind]
          obtain ⟨ptb, hptb, hptbw⟩ := doc_tables_iter_ok hp
          obtain ⟨ctb, hctb, hctbw⟩ := doc_tables_iter_ok hc
          rw [hptb, ok_bind, hctb, ok_bind]
          obtain ⟨tbl, htbl, htblne⟩ := summarize_table_changes_ok hptbw hctbw
          rw [htbl, ok_bind]
          have hg5 : (JVal.obj pkvs).pyGet "user_id" =
              .ok ((JVal.lookup? pkvs "user_id").getD .null) := rfl
          have hg6 : (JVal.obj ckvs).pyGet "user_id" =
              .ok ((JVal.lookup? ckvs "user_id").getD .null) := rfl
          rw [hg5, ok_bind, hg6, ok_bind]
          dsimp only
          apply summarize_changes_post_ok
          · exact hp
          · exact hc
          · intro s hs
            rcases List.mem_append.mp hs with h9 | h9
            · rcases List.mem_append.mp h9 with h8 | h8
              · exact htlne s h8
              · exact htblne s h8
            · have h8 := mem_if_singleton h9
              subst h8
              exact sne5 (by decide)
      | null => simp [WFDoc] at hc
      | bool b => simp [WFDoc] at hc
      | num n => simp [WFDoc] at hc
      | str s => simp [WFDoc] at hc
      | arr xs => simp [WFDoc] at hc
      | tup xs => simp [WFDoc] at hc
  | null => simp [WFDoc] at hp
  | bool b => simp [WFDoc] at hp
  | num n => simp [WFDoc] at hp
  | str s => simp [WFDoc] at hp
  | arr xs => simp [WFDoc] at hp
  | tup xs => simp [WFDoc] at hp

theorem joinNl_cons_ne {a : String} (ha : a ≠ "") (l : List String) :
    joinNl (a :: l) ≠ "" := by
  cases l with
  | nil => exact ha
  | cons b t => exact append_ne_empty_left (append_ne_empty_left ha)

/-- C10 counterexample: with a present previous snapshot that is not a dict,
`summarize_changes` raises `AttributeError` instead of returning a string —
the claim's unconditional totality fails. -/
theorem C10_counterexample :
    summarize_changes (some (.arr [])) (.obj []) = .error "AttributeError" :=
  rfl

/-- C10 amended: on well-formed documents (dicts whose `tiles`/`tables`
values, when present, are lists of dicts, resp. of well-formed tables),
`summarize_changes` with a present previous snapshot returns a non-empty
string: the joined lines always include a Œî diff line, a summarizer line, or
the generic changes-detected sentence. On non-dict documents it raises
instead. -/
theorem C10_nonempty (prev curr : JVal) (hp : WFDoc prev = true)
    (hc : WFDoc curr = true) :
    ∃ s, summarize_changes (some prev) curr = .ok s ∧ s ≠ "" := by
  obtain ⟨L, hL, hne, hall⟩ := summarize_changes_list_ok hp hc
  refine ⟨joinNl (L.take 7), ?_, ?_⟩
  · have hred : summarize_changes (some prev) curr =
        (do let l ← summarize_changes_list prev curr
            pure (joinNl (l.take 7))) := rfl
    rw [hred, hL, ok_bind]
    rfl
  · cases L with
    | nil => exact absurd rfl hne
    | cons a t =>
        rw [List.take_succ_cons]
        exact joinNl_cons_ne (hall a (List.mem_cons_self a t)) _

/-- C10 witness: two empty documents are well-formed, and the summary is the
non-empty generic sentence. -/
theorem C10_witness :
    ∃ s, summarize_changes (some (.obj [])) (.obj []) = .ok s ∧ s ≠ "" :=
  C10_nonempty (.obj []) (.obj []) (by decide) (by decide)

end Portad
